import Mathlib

/-!
# QueueCTL: the queue engine

A shallow embedding of `src/queue.js` (enqueue, fetchNextJob, completeJob,
failJob), of the worker loop body of `src/worker.js`, and of the `enqueue`,
`dlq retry` and `config set` actions of `bin/queuectl.js`.

Modelling conventions.

* The SQLite database is a value of type `Store`: the rows of the `jobs`
  table in table order and the rows of the `config` table.  Every SQL
  statement of the source is one function on `Store` (one atomic step).
* The clock is an explicit argument `now`, the time in whole seconds as
  `CURRENT_TIMESTAMP` and `datetime('now')` read it, counted from the origin of
  SQLite's Julian-day clock.  `failJob`, whose statement adds a delay to the
  clock, also takes `millis`, the milliseconds the clock has beyond `now`.
* A JavaScript number that holds an integer is the integer (`Int`); the sum
  `attempts + 1` and the result of `parseInt` are rounded to the nearest IEEE 754
  double as JavaScript does (`roundToDouble`, `toNumber`).
* `generateId()` (a random UUID) is an explicit argument of `enqueue`.
-/

namespace QueueCTL

/-- The values of the `state` column.  `failed` is named by the `list --state`
filter of the command line only; no statement of the engine writes it. -/
inductive JobState where
  | pending
  | processing
  | completed
  | failed
  | dead
  deriving DecidableEq, Repr

/-- A JavaScript number that is an integer or one of the two infinities. -/
inductive JsNumber where
  | negInfinity
  | int (value : Int)
  | infinity
  deriving DecidableEq, Repr

/-- One row of the `jobs` table.  `max_retries`, `last_error` and `next_run_at`
may be NULL (`none`). -/
structure Job where
  id : String
  command : String
  state : JobState
  attempts : Int
  max_retries : Option JsNumber
  last_error : Option String
  next_run_at : Option ℚ
  created_at : ℚ
  updated_at : ℚ
  deriving DecidableEq

/-- The database: the `jobs` rows in table order and the `config` rows. -/
structure Store where
  jobs : List Job
  config : List (String × String)
  deriving DecidableEq

/-- The outcome string returned by `failJob`. -/
inductive Outcome where
  | dead
  | retry
  deriving DecidableEq, Repr

/-! ## Configuration table -/

/-- `SELECT value FROM config WHERE key = ?` followed by `.get()`: the value of
the first row with that key, if any. -/
def configGet (s : Store) (key : String) : Option String :=
  (s.config.find? (fun kv => kv.1 == key)).map Prod.snd

/-- Modelled from the spec: `key` is unique in the `config` table, whose
declaration is in `src/db.js`, not among the sources.  So
`INSERT OR REPLACE INTO config (key, value) VALUES (?, ?)` replaces the row
with that key, if any, by the new row. -/
def configSet (key value : String) (s : Store) : Store :=
  { s with config := s.config.filter (fun kv => !(kv.1 == key)) ++ [(key, value)] }

/-- The characters JavaScript's `parseInt` skips at the start of its input
(WhiteSpace and LineTerminator). -/
def isJsWhitespace (c : Char) : Bool :=
  let n := c.toNat
  n == 0x09 || n == 0x0A || n == 0x0B || n == 0x0C || n == 0x0D || n == 0x20 ||
  n == 0xA0 || n == 0x1680 || (0x2000 ≤ n && n ≤ 0x200A) || n == 0x2028 ||
  n == 0x2029 || n == 0x202F || n == 0x205F || n == 0x3000 || n == 0xFEFF

/-- The value of a string of decimal digits. -/
def digitsValue (ds : List Char) : Nat :=
  ds.foldl (fun acc c => 10 * acc + (c.toNat - 48)) 0

/-! ## JavaScript numbers -/

/-- The least `e` among `start`, ..., `start + count - 1` with
`m < 2 ^ (53 + e)`, if there is one. -/
def leastExponent (m : Nat) : Nat → Nat → Option Nat
  | 0, _ => none
  | count + 1, start =>
    if m < 2 ^ (53 + start) then some start else leastExponent m count (start + 1)

/-- The exponent of a natural number `m` as a double: the least `e` with
`m < 2 ^ (53 + e)`, so that `m / 2 ^ e` fits the 53 bits of a significand.
`none` from `2 ^ 1024` on, where there is no finite double. -/
def doubleExponent (m : Nat) : Option Nat := leastExponent m 972 0

/-- The natural number `m` rounded to the nearest IEEE 754 double, a tie going
to the even significand.  Numbers below `2 ^ 53` are doubles.  From `2 ^ 1024`
on the function returns `m`; `toNumber` gives those the value `Infinity`. -/
def roundNat (m : Nat) : Nat :=
  match doubleExponent m with
  | none => m
  | some e =>
    let q := m / 2 ^ e
    let r := m % 2 ^ e
    let half := 2 ^ (e - 1)
    if r < half then q * 2 ^ e
    else if half < r then (q + 1) * 2 ^ e
    else if q % 2 = 0 then q * 2 ^ e
    else (q + 1) * 2 ^ e

/-- The integer `n` rounded to the nearest double: what a JavaScript sum whose
exact value is `n` evaluates to.  The sum of a double and 1 is below
`2 ^ 1024`, so it is never an infinity. -/
def roundToDouble (n : Int) : Int :=
  if n < 0 then -(roundNat n.natAbs : Int) else (roundNat n.natAbs : Int)

/-- The Number value of the integer `n`: the nearest double, or an infinity
when that rounding reaches `2 ^ 1024`. -/
def toNumber (n : Int) : JsNumber :=
  match doubleExponent (roundNat n.natAbs) with
  | some _ => JsNumber.int (roundToDouble n)
  | none => if n < 0 then JsNumber.negInfinity else JsNumber.infinity

/-- The comparison `n >= limit` of JavaScript for an integer `n`, where `none`
is `null`, which compares as 0. -/
def atLeast (n : Int) : Option JsNumber → Bool
  | none => decide (n ≥ 0)
  | some JsNumber.negInfinity => true
  | some (JsNumber.int m) => decide (n ≥ m)
  | some JsNumber.infinity => false

/-- The integer that `parseInt(str, 10)` reads before it converts it to a
Number: leading white space is skipped, one sign is read, then the longest run
of decimal digits; `none` when there is no digit. -/
def parsedInteger (str : String) : Option Int :=
  let s := str.toList.dropWhile isJsWhitespace
  let signed : Bool × List Char :=
    match s with
    | '-' :: r => (true, r)
    | '+' :: r => (false, r)
    | _ => (false, s)
  let z := signed.2.takeWhile Char.isDigit
  if z.isEmpty then none
  else if signed.1 then some (-(digitsValue z : Int))
  else some (digitsValue z : Int)

/-- JavaScript's `parseInt(str, 10)`: the Number value of the integer read,
correctly rounded as V8 computes it; `none` stands for `NaN`, the result when
there is no digit. -/
def parseInt (str : String) : Option JsNumber :=
  (parsedInteger str).map toNumber

/-! ## SQLite date and time -/

/-- The last millisecond SQLite's date functions express, the end of
9999-12-31, counted from the origin of the Julian-day clock. -/
def lastJulianMillis : ℚ := 464269060799999

/-- The milliseconds SQLite adds for the modifier `+N seconds`: `N * 1000`
rounded to the nearest integer. -/
def addedMillis (delay : ℚ) : Int := ⌊delay * 1000 + 1 / 2⌋

/-- SQLite's `datetime('now', '+' || N || ' seconds')` for `N ≥ 0`, the clock
being at `now` seconds and `millis` milliseconds: the delay is added in
milliseconds, the result is NULL (`none`) when it is outside the dates SQLite
expresses, and otherwise it is cut to whole seconds. -/
def datetimeNowPlusSeconds (now : ℚ) (millis : Fin 1000) (delay : ℚ) : Option ℚ :=
  let total : ℚ := now * 1000 + (millis.val : ℚ) + (addedMillis delay : ℚ)
  if 0 ≤ total ∧ total ≤ lastJulianMillis then
    some (now + ((((millis.val : Int) + addedMillis delay) / 1000 : Int) : ℚ))
  else none

/-! ## queue.js -/

/-- Modelled from the spec: the column defaults of the `jobs` table, declared
in `src/db.js`, which is not among the sources.  A row inserted with only
`id`, `command` and `max_retries` has `state = pending`, `attempts = 0`, no
`last_error`, and `next_run_at`, `created_at`, `updated_at` equal to the time
of the insert. -/
def insertedRow (id command : String) (maxRetries : Option JsNumber) (now : ℚ) : Job :=
  { id := id, command := command, state := JobState.pending, attempts := 0,
    max_retries := maxRetries, last_error := none,
    next_run_at := some now, created_at := now, updated_at := now }

/-- The `maxRetries` computed by `enqueue`:
`config ? parseInt(config.value, 10) : 3`.  A `NaN` is stored as NULL. -/
def enqueueMaxRetries (s : Store) : Option JsNumber :=
  match configGet s "max_retries" with
  | some v => parseInt v
  | none => some (JsNumber.int 3)

/-- `enqueue(command)`: reads the `max_retries` configuration, inserts one row
and returns it (`RETURNING *`).  `id` is the value of `generateId()`. -/
def enqueue (id : String) (now : ℚ) (command : String) (s : Store) : Job × Store :=
  let row := insertedRow id command (enqueueMaxRetries s) now
  (row, { s with jobs := s.jobs ++ [row] })

/-- The `WHERE` clause of the sub-query of `fetchNextJob`:
`state = 'pending' AND datetime(next_run_at) <= datetime('now')`.  The
comparison is not true of a NULL `next_run_at`. -/
def eligible (now : ℚ) (j : Job) : Bool :=
  j.state == JobState.pending &&
    match j.next_run_at with
    | some t => decide (t ≤ now)
    | none => false

/-- The order of `ORDER BY created_at ASC`. -/
def olderOrEqual (a b : Job) : Prop := a.created_at ≤ b.created_at

instance : DecidableRel olderOrEqual := fun a b =>
  inferInstanceAs (Decidable (a.created_at ≤ b.created_at))

instance : IsTotal Job olderOrEqual := ⟨fun a b => le_total a.created_at b.created_at⟩

instance : IsTrans Job olderOrEqual :=
  ⟨fun a b c (hab : a.created_at ≤ b.created_at) (hbc : b.created_at ≤ c.created_at) =>
    le_trans hab hbc⟩

/-- The sub-query of `fetchNextJob`:
`SELECT id FROM jobs WHERE ... ORDER BY created_at ASC LIMIT 1`.  Among rows
with the same `created_at` the sort keeps the table order; no theorem below
depends on which of them comes first. -/
def selectNextId (now : ℚ) (s : Store) : Option String :=
  (((s.jobs.filter (eligible now)).insertionSort olderOrEqual).head?).map Job.id

/-- `fetchNextJob()`: the `UPDATE ... WHERE id = (sub-query) RETURNING *`
statement followed by `.get()`, which yields the first updated row. -/
def fetchNextJob (now : ℚ) (s : Store) : Option Job × Store :=
  match selectNextId now s with
  | none => (none, s)
  | some id =>
    let jobs := s.jobs.map (fun j =>
      if j.id = id then { j with state := JobState.processing, updated_at := now } else j)
    (jobs.find? (fun j => j.id == id), { s with jobs := jobs })

/-- `completeJob(id)`:
`UPDATE jobs SET state = 'completed', updated_at = CURRENT_TIMESTAMP WHERE id = ?`. -/
def completeJob (now : ℚ) (id : String) (s : Store) : Store :=
  { s with jobs := s.jobs.map (fun j =>
      if j.id = id then { j with state := JobState.completed, updated_at := now } else j) }

/-- `failJob(id, error, attempts, maxRetries)` for an integer `attempts`;
`maxRetries` is an integer, an infinity, or `null` (`none`), the values a
`max_retries` column reads as.  `Math.pow(2, nextAttempts)` is the exact power
of two: where the double differs from it (an infinity above `2 ^ 1023`, zero
below `2 ^ -1074`) the date is out of range, or no millisecond is added, for
both. -/
def failJob (now : ℚ) (millis : Fin 1000) (id error : String) (attempts : Int)
    (maxRetries : Option JsNumber) (s : Store) : Outcome × Store :=
  let nextAttempts := roundToDouble (attempts + 1)
  if atLeast nextAttempts maxRetries = true then
    (Outcome.dead, { s with jobs := s.jobs.map (fun j =>
      if j.id = id then
        { j with state := JobState.dead, last_error := some error,
                 attempts := nextAttempts, updated_at := now }
      else j) })
  else
    let delaySeconds : ℚ := (2 : ℚ) ^ nextAttempts
    (Outcome.retry, { s with jobs := s.jobs.map (fun j =>
      if j.id = id then
        { j with state := JobState.pending, last_error := some error,
                 attempts := nextAttempts,
                 next_run_at := datetimeNowPlusSeconds now millis delaySeconds,
                 updated_at := now }
      else j) })

/-! ## bin/queuectl.js -/

/-- The `dlq retry <id>` action:
`UPDATE jobs SET state = 'pending', attempts = 0, next_run_at = CURRENT_TIMESTAMP
WHERE id = ? AND state = 'dead'`; the Boolean is `res.changes > 0`, on which the
action prints either the success line or "Job not found or not dead". -/
def dlqRetry (now : ℚ) (id : String) (s : Store) : Bool × Store :=
  let changes := (s.jobs.filter (fun j => j.id == id && j.state == JobState.dead)).length
  (decide (changes > 0), { s with jobs := s.jobs.map (fun j =>
    if j.id = id ∧ j.state = JobState.dead then
      { j with state := JobState.pending, attempts := 0, next_run_at := some now }
    else j) })


/-- The `enqueue [args...]` action.  `jsonCommand raw` stands for
`JSON.parse(raw).command`: an error with its message when `JSON.parse` throws,
`none` when the field is absent, otherwise the field's string.  The result is
the message of the error line printed, or the job enqueued. -/
def enqueueAction (jsonCommand : String → Except String (Option String))
    (id : String) (now : ℚ) (args : List String) (s : Store) : Except String Job × Store :=
  if args.length = 0 then (Except.error "Missing command.", s)
  else
    let rawInput := " ".intercalate args
    let startsWithBrace : Bool :=
      match rawInput.toList.dropWhile isJsWhitespace with
      | c :: _ => c.toNat == 0x7B
      | [] => false
    if startsWithBrace then
      match jsonCommand rawInput with
      | Except.error msg => (Except.error msg, s)
      | Except.ok none => (Except.error "Field 'command' is required", s)
      | Except.ok (some c) =>
        if c = "" then (Except.error "Field 'command' is required", s)
        else ((Except.ok (enqueue id now c s).1), (enqueue id now c s).2)
    else ((Except.ok (enqueue id now rawInput s).1), (enqueue id now rawInput s).2)

/-! ## worker.js -/

/-- What `exec(job.command, ...)` does: its callback reports the standard
output on success, or `stderr || error.message` on failure; or `exec` throws
before it starts the command, as Node does for the empty command, so that the
promise is rejected with the Error object. -/
inductive ExecResult where
  | success (stdout : String)
  | failure (detail : String)
  | threw

/-- What one iteration of the worker loop does with the job it claimed:
`completeJob(job.id)` when the command succeeded, otherwise
`failJob(job.id, err, job.attempts, job.max_retries)`.  When `exec` threw,
`err` is an Error object, which the statement of `failJob` cannot bind: the
call throws before its `UPDATE` runs, nothing is written, and the loop ends. -/
def recordOutcome (exec : String → ExecResult) (now : ℚ) (millis : Fin 1000) (job : Job)
    (s : Store) : Store :=
  match exec job.command with
  | ExecResult.success _ => completeJob now job.id s
  | ExecResult.failure err => (failJob now millis job.id err job.attempts job.max_retries s).2
  | ExecResult.threw => s

/-- One iteration of the `while (running)` loop: the claim at time `claimTime`,
then, if a job was claimed, its execution and the record of the outcome at time
`finishTime` and `finishMillis` milliseconds.  With no job the iteration only
sleeps. -/
def workerIteration (exec : String → ExecResult) (claimTime finishTime : ℚ)
    (finishMillis : Fin 1000) (s : Store) : Store :=
  match fetchNextJob claimTime s with
  | (none, s1) => s1
  | (some job, s1) => recordOutcome exec finishTime finishMillis job s1

/-! ## Sequences of operations -/

/-- Claims by several workers, run as atomic steps in the order of `schedule`,
a list of worker ids (`WORKER_ID`), all at time `now`.  Each entry of the result
is the worker and what its `fetchNextJob()` returned. -/
def runClaims (now : ℚ) : List Nat → Store → List (Nat × Option Job) × Store
  | [], s => ([], s)
  | w :: ws, s =>
    let r := fetchNextJob now s
    let rest := runClaims now ws r.2
    ((w, r.1) :: rest.1, rest.2)

/-- The operations on the store: the four functions of `queue.js` and the
`dlq retry` and `config set` actions. -/
inductive Op where
  | enqueue (id command : String)
  | fetchNextJob
  | completeJob (id : String)
  | failJob (id error : String) (attempts maxRetries : Int)
  | dlqRetry (id : String)
  | configSet (key value : String)

/-- The store after one operation run when the clock is at `now` seconds and
`millis` milliseconds. -/
def step (now : ℚ) (millis : Fin 1000) : Op → Store → Store
  | Op.enqueue id command, s => (enqueue id now command s).2
  | Op.fetchNextJob, s => (fetchNextJob now s).2
  | Op.completeJob id, s => completeJob now id s
  | Op.failJob id error attempts maxRetries, s =>
    (failJob now millis id error attempts (some (JsNumber.int maxRetries)) s).2
  | Op.dlqRetry id, s => (dlqRetry now id s).2
  | Op.configSet key value, s => configSet key value s

/-- The row a successful claim returns for the stored row `j`. -/
def claimedRow (now : ℚ) (j : Job) : Job :=
  { j with state := JobState.processing, updated_at := now }

/-- A sequence of operations, each with the time at which it runs. -/
def runOps (ops : List (ℚ × Fin 1000 × Op)) (s : Store) : Store :=
  ops.foldl (fun acc p => step p.1 p.2.1 p.2.2 acc) s

/-! ## Example stores -/

/-- A job enqueued at time 0 under `max_retries = 3`. -/
def sampleJob (id : String) (state : JobState) (attempts : Int) : Job :=
  { insertedRow id "echo hello" (some (JsNumber.int 3)) 0 with
      state := state, attempts := attempts }

/-- A store holding one completed job. -/
def completedStore : Store := { jobs := [sampleJob "a" JobState.completed 0], config := [] }

/-- A store holding one dead job. -/
def deadStore : Store := { jobs := [sampleJob "a" JobState.dead 3], config := [] }

/-- A store holding one claimed job that has failed five times. -/
def processingStore : Store := { jobs := [sampleJob "a" JobState.processing 5], config := [] }

/-- A store holding two pending jobs. -/
def pendingStore : Store :=
  { jobs := [sampleJob "a" JobState.pending 0, sampleJob "b" JobState.pending 0],
    config := [("max_retries", "3")] }

/-- An empty store whose configuration sets `max_retries` to `2 ^ 53 + 1`. -/
def bigConfigStore : Store :=
  { jobs := [], config := [("max_retries", "9007199254740993")] }

/-- A store holding one claimed job whose `attempts` is `2 ^ 53`. -/
def saturatedStore : Store :=
  { jobs := [sampleJob "a" JobState.processing 9007199254740992], config := [] }

/-! ## Rounding to a double -/

theorem doubleExponent_small (m : Nat) (h : m < 2 ^ 53) : doubleExponent m = some 0 := by
  have h0 : m < 2 ^ (53 + 0) := h
  rw [doubleExponent, leastExponent, if_pos h0]

theorem roundNat_small (m : Nat) (h : m < 2 ^ 53) : roundNat m = m := by
  unfold roundNat
  rw [doubleExponent_small m h]
  simp [Nat.mod_one]

theorem roundNat_le (m : Nat) (h : m ≤ 2 ^ 53) : roundNat m = m := by
  rcases Nat.lt_or_ge m (2 ^ 53) with hlt | hge
  · exact roundNat_small m hlt
  · have : m = 2 ^ 53 := Nat.le_antisymm h hge
    subst this
    decide

/-- Integers of magnitude at most `2 ^ 53` are doubles: rounding leaves them
as they are. -/
theorem roundToDouble_exact (n : Int) (hlo : -(2 ^ 53) ≤ n) (hhi : n ≤ 2 ^ 53) :
    roundToDouble n = n := by
  have habs : n.natAbs ≤ 2 ^ 53 := by omega
  unfold roundToDouble
  rw [roundNat_le n.natAbs habs]
  by_cases hneg : n < 0
  · simp only [hneg, if_true]; omega
  · simp only [hneg, if_false]; omega

theorem toNumber_exact (n : Int) (hlo : -(2 ^ 53) ≤ n) (hhi : n ≤ 2 ^ 53) :
    toNumber n = JsNumber.int n := by
  have habs : n.natAbs ≤ 2 ^ 53 := by omega
  unfold toNumber
  rw [roundNat_le n.natAbs habs, roundToDouble_exact n hlo hhi]
  rcases Nat.lt_or_ge n.natAbs (2 ^ 53) with hlt | hge
  · rw [doubleExponent_small _ hlt]
  · have : n.natAbs = 2 ^ 53 := Nat.le_antisymm habs hge
    rw [this]
    rfl

/-! ## Row-wise updates -/

theorem map_ite_ids (p : Job → Prop) [DecidablePred p] (g : Job → Job)
    (hg : ∀ j, (g j).id = j.id) (l : List Job) :
    (l.map (fun j => if p j then g j else j)).map Job.id = l.map Job.id := by
  induction l with
  | nil => rfl
  | cons a l ih =>
    simp only [List.map_cons, ih]
    by_cases h : p a <;> simp [h, hg]

theorem failJob_ids (now : ℚ) (millis : Fin 1000) (id error : String) (attempts : Int)
    (maxRetries : Option JsNumber) (s : Store) :
    (failJob now millis id error attempts maxRetries s).2.jobs.map Job.id =
      s.jobs.map Job.id := by
  unfold failJob
  by_cases h : atLeast (roundToDouble (attempts + 1)) maxRetries = true
  · simp only [h, if_true]
    exact map_ite_ids (fun j => j.id = id) _ (fun _ => by rfl) s.jobs
  · simp only [h, Bool.false_eq_true, if_false]
    exact map_ite_ids (fun j => j.id = id) _ (fun _ => by rfl) s.jobs

theorem failJob_present (now : ℚ) (millis : Fin 1000) (id error : String) (attempts : Int)
    (maxRetries : Option JsNumber) (s : Store) (hpresent : ∃ j ∈ s.jobs, j.id = id) :
    ∃ j ∈ (failJob now millis id error attempts maxRetries s).2.jobs, j.id = id := by
  obtain ⟨j0, hj0, hid0⟩ := hpresent
  have : id ∈ (failJob now millis id error attempts maxRetries s).2.jobs.map Job.id := by
    rw [failJob_ids]; exact List.mem_map.mpr ⟨j0, hj0, hid0⟩
  obtain ⟨j, hj, hjid⟩ := List.mem_map.mp this
  exact ⟨j, hj, hjid⟩

/-- The row at a position after `failJob`. -/
theorem failJob_row (now : ℚ) (millis : Fin 1000) (id error : String) (attempts : Int)
    (maxRetries : Option JsNumber) (s : Store) (i : Nat) (x : Job) (h : s.jobs[i]? = some x) :
    (failJob now millis id error attempts maxRetries s).2.jobs[i]? =
      some (if x.id = id then
        (if atLeast (roundToDouble (attempts + 1)) maxRetries = true then
          { x with state := JobState.dead, last_error := some error,
                   attempts := roundToDouble (attempts + 1), updated_at := now }
        else
          { x with state := JobState.pending, last_error := some error,
                   attempts := roundToDouble (attempts + 1),
                   next_run_at := datetimeNowPlusSeconds now millis
                     ((2 : ℚ) ^ roundToDouble (attempts + 1)),
                   updated_at := now })
        else x) := by
  unfold failJob
  by_cases hb : atLeast (roundToDouble (attempts + 1)) maxRetries = true
  · simp only [hb, if_true]
    rw [List.getElem?_map, h]; rfl
  · simp only [hb, Bool.false_eq_true, if_false]
    rw [List.getElem?_map, h]; rfl

/-- Every row with the given id after `failJob`, in its two branches. -/
theorem failJob_rows (now : ℚ) (millis : Fin 1000) (id error : String) (attempts : Int)
    (maxRetries : Option JsNumber) (s : Store) :
    ∀ j ∈ (failJob now millis id error attempts maxRetries s).2.jobs, j.id = id →
      j.attempts = roundToDouble (attempts + 1) ∧ j.last_error = some error ∧
      (atLeast (roundToDouble (attempts + 1)) maxRetries = true → j.state = JobState.dead) ∧
      (atLeast (roundToDouble (attempts + 1)) maxRetries = false →
        j.state = JobState.pending ∧
        j.next_run_at = datetimeNowPlusSeconds now millis
          ((2 : ℚ) ^ roundToDouble (attempts + 1))) := by
  intro j hj hjid
  unfold failJob at hj
  by_cases h : atLeast (roundToDouble (attempts + 1)) maxRetries = true
  · simp only [h, if_true] at hj
    obtain ⟨k, _, hk⟩ := List.mem_map.mp hj
    by_cases hkid : k.id = id
    · simp only [hkid, if_true] at hk
      subst hk; simp [h]
    · simp only [hkid, if_false] at hk
      subst hk; exact absurd hjid hkid
  · simp only [h, Bool.false_eq_true, if_false] at hj
    obtain ⟨k, _, hk⟩ := List.mem_map.mp hj
    by_cases hkid : k.id = id
    · simp only [hkid, if_true] at hk
      subst hk; simp [h]
    · simp only [hkid, if_false] at hk
      subst hk; exact absurd hjid hkid

theorem failJob_outcome (now : ℚ) (millis : Fin 1000) (id error : String) (attempts : Int)
    (maxRetries : Option JsNumber) (s : Store) :
    (failJob now millis id error attempts maxRetries s).1 =
      if atLeast (roundToDouble (attempts + 1)) maxRetries = true then Outcome.dead
      else Outcome.retry := by
  unfold failJob
  by_cases h : atLeast (roundToDouble (attempts + 1)) maxRetries = true
  · simp only [h, if_true]
  · simp only [h, Bool.false_eq_true, if_false]

/-! ## failJob: outcome and recorded fields -/

/-- C1, as stated for all integers, fails: `attempts + 1` is a sum of doubles,
and for `attempts = 2 ^ 53 = 9007199254740992` it is `2 ^ 53` again, so the job
present under id "a" gets `attempts = 2 ^ 53`, not `2 ^ 53 + 1`. -/
theorem failJob_attempts_not_incremented_at_two_pow_53 :
    (∃ j ∈ processingStore.jobs, j.id = "a") ∧
    (failJob 10 0 "a" "boom" 9007199254740992 (some (JsNumber.int 3))
      processingStore).2.jobs.map Job.attempts = [9007199254740992] := by
  refine ⟨⟨sampleJob "a" JobState.processing 5, by decide, rfl⟩, ?_⟩
  decide

/-- C1, amended: for an id present in the store, an integer `attempts` with
`-2 ^ 53 ≤ attempts < 2 ^ 53` and an integer `maxRetries`, `failJob` returns
`dead` exactly when `attempts + 1 ≥ maxRetries` and `retry` otherwise; the rows
of the table are the same ids as before, and every row with that id has state
`dead` in the dead case and `pending` in the retry case,
`attempts = attempts + 1` and `last_error = error`. -/
theorem failJob_outcome_and_row (now : ℚ) (millis : Fin 1000) (id error : String)
    (attempts maxRetries : Int) (s : Store) (hpresent : ∃ j ∈ s.jobs, j.id = id)
    (hlo : -(2 ^ 53) ≤ attempts) (hhi : attempts < 2 ^ 53) :
    ((failJob now millis id error attempts (some (JsNumber.int maxRetries)) s).1
        = Outcome.dead ↔ attempts + 1 ≥ maxRetries) ∧
    ((failJob now millis id error attempts (some (JsNumber.int maxRetries)) s).1
        = Outcome.retry ↔ ¬ (attempts + 1 ≥ maxRetries)) ∧
    (failJob now millis id error attempts (some (JsNumber.int maxRetries)) s).2.jobs.map
        Job.id = s.jobs.map Job.id ∧
    (∃ j ∈ (failJob now millis id error attempts (some (JsNumber.int maxRetries)) s).2.jobs,
      j.id = id) ∧
    (∀ j ∈ (failJob now millis id error attempts (some (JsNumber.int maxRetries)) s).2.jobs,
      j.id = id →
      (j.state =
        if (failJob now millis id error attempts (some (JsNumber.int maxRetries)) s).1
            = Outcome.dead
        then JobState.dead else JobState.pending) ∧
      j.attempts = attempts + 1 ∧ j.last_error = some error) := by
  have hround : roundToDouble (attempts + 1) = attempts + 1 :=
    roundToDouble_exact (attempts + 1) (by omega) (by omega)
  have hcmp : atLeast (roundToDouble (attempts + 1)) (some (JsNumber.int maxRetries)) = true ↔
      attempts + 1 ≥ maxRetries := by
    rw [hround]; simp [atLeast]
  have hout : (failJob now millis id error attempts (some (JsNumber.int maxRetries)) s).1
      = Outcome.dead ↔ attempts + 1 ≥ maxRetries := by
    rw [← hcmp, failJob_outcome]
    cases hb : atLeast (roundToDouble (attempts + 1)) (some (JsNumber.int maxRetries)) <;>
      simp
  have hout2 : (failJob now millis id error attempts (some (JsNumber.int maxRetries)) s).1
      = Outcome.retry ↔ ¬ (attempts + 1 ≥ maxRetries) := by
    rw [← hcmp, failJob_outcome]
    cases hb : atLeast (roundToDouble (attempts + 1)) (some (JsNumber.int maxRetries)) <;>
      simp
  refine ⟨hout, hout2, failJob_ids now millis id error attempts _ s,
    failJob_present now millis id error attempts _ s hpresent, ?_⟩
  intro j hj hjid
  obtain ⟨hatt, herr, hdead, hretry⟩ :=
    failJob_rows now millis id error attempts (some (JsNumber.int maxRetries)) s j hj hjid
  refine ⟨?_, by rw [hatt, hround], herr⟩
  by_cases hge : attempts + 1 ≥ maxRetries
  · rw [if_pos (hout.mpr hge)]
    exact hdead (hcmp.mpr hge)
  · have hne : (failJob now millis id error attempts (some (JsNumber.int maxRetries)) s).1
        ≠ Outcome.dead := fun hc => hge (hout.mp hc)
    rw [if_neg hne]
    have hfalse : atLeast (roundToDouble (attempts + 1)) (some (JsNumber.int maxRetries))
        = false := by
      rw [← Bool.not_eq_true]; exact fun hc => hge (hcmp.mp hc)
    exact (hretry hfalse).1

/-! ## failJob: the backoff delay -/

theorem addedMillis_whole (n : Nat) : addedMillis (n : ℚ) = 1000 * (n : Int) := by
  unfold addedMillis
  rw [Int.floor_eq_iff]
  constructor
  · push_cast; linarith
  · push_cast; linarith

/-- A whole number of seconds added to a clock that stays within SQLite's
dates gives that many seconds more, whatever the milliseconds of the clock. -/
theorem datetimeNowPlusSeconds_whole (now : ℚ) (millis : Fin 1000) (n : Nat)
    (hnow : 0 ≤ now)
    (hrange : now * 1000 + (millis.val : ℚ) + 1000 * (n : ℚ) ≤ lastJulianMillis) :
    datetimeNowPlusSeconds now millis (n : ℚ) = some (now + (n : ℚ)) := by
  unfold datetimeNowPlusSeconds
  rw [addedMillis_whole]
  have hdiv : ((millis.val : Int) + 1000 * (n : Int)) / 1000 = (n : Int) := by
    have := millis.isLt
    omega
  rw [hdiv]
  have hms : (0 : ℚ) ≤ (millis.val : ℚ) := Nat.cast_nonneg _
  have hn : (0 : ℚ) ≤ (n : ℚ) := Nat.cast_nonneg _
  have hcond : 0 ≤ now * 1000 + (millis.val : ℚ) + ((1000 * (n : Int) : Int) : ℚ) ∧
      now * 1000 + (millis.val : ℚ) + ((1000 * (n : Int) : Int) : ℚ) ≤ lastJulianMillis := by
    push_cast
    exact ⟨by nlinarith, hrange⟩
  simp only []
  rw [if_pos hcond]
  push_cast
  rfl

theorem two_zpow_of_nonneg (k : Int) (hk : 0 ≤ k) : (2 : ℚ) ^ k = ((2 ^ k.toNat : Nat) : ℚ) := by
  obtain ⟨n, rfl⟩ := Int.eq_ofNat_of_zero_le hk
  simp [zpow_natCast]

theorem failJob_dead_next_run_at (now : ℚ) (millis : Fin 1000) (id error : String)
    (attempts : Int) (maxRetries : Option JsNumber) (s : Store)
    (hdead : (failJob now millis id error attempts maxRetries s).1 = Outcome.dead) :
    (failJob now millis id error attempts maxRetries s).2.jobs.map Job.next_run_at =
      s.jobs.map Job.next_run_at := by
  have hb : atLeast (roundToDouble (attempts + 1)) maxRetries = true := by
    rw [failJob_outcome] at hdead
    by_contra hc
    rw [if_neg hc] at hdead
    exact Outcome.noConfusion hdead
  unfold failJob
  simp only [hb, if_true]
  induction s.jobs with
  | nil => rfl
  | cons a l ih =>
    simp only [List.map_cons, ih]
    by_cases h : a.id = id <;> simp [h]

/-- The retry branch within the range where the sum is exact, the delay is a
whole number of seconds and the date stays within SQLite's dates. -/
theorem failJob_retry_rows (now : ℚ) (millis : Fin 1000) (id error : String)
    (attempts maxRetries : Int) (s : Store) (hretry : attempts + 1 < maxRetries)
    (hnonneg : 0 ≤ attempts + 1) (hhi : attempts < 2 ^ 53) (hnow : 0 ≤ now)
    (hrange : now * 1000 + (millis.val : ℚ) + 1000 * (2 : ℚ) ^ (attempts + 1)
      ≤ lastJulianMillis) :
    ∀ j ∈ (failJob now millis id error attempts (some (JsNumber.int maxRetries)) s).2.jobs,
      j.id = id →
      j.state = JobState.pending ∧ j.attempts = attempts + 1 ∧
      j.next_run_at = some (now + (2 : ℚ) ^ (attempts + 1)) := by
  intro j hj hjid
  have hround : roundToDouble (attempts + 1) = attempts + 1 :=
    roundToDouble_exact (attempts + 1) (by omega) (by omega)
  obtain ⟨hatt, _, _, hr⟩ :=
    failJob_rows now millis id error attempts (some (JsNumber.int maxRetries)) s j hj hjid
  have hfalse : atLeast (roundToDouble (attempts + 1)) (some (JsNumber.int maxRetries))
      = false := by
    rw [hround]; simp [atLeast]; omega
  obtain ⟨hstate, hnext⟩ := hr hfalse
  refine ⟨hstate, by rw [hatt, hround], ?_⟩
  rw [hnext, hround, two_zpow_of_nonneg _ hnonneg]
  apply datetimeNowPlusSeconds_whole _ _ _ hnow
  rw [← two_zpow_of_nonneg _ hnonneg]
  exact hrange

/-- C2, as stated, fails outside a range of `attempts`: a 38th failure in the
year 2028 takes the retry branch, but `now + 2 ^ 38` seconds is past the year
9999 and `next_run_at` becomes NULL; and with `attempts = -2` the delay of half
a second is cut off, so that `next_run_at` is `now`. -/
theorem failJob_backoff_out_of_range :
    (failJob 212700000000 0 "a" "boom" 37 (some (JsNumber.int 100)) processingStore).1
      = Outcome.retry ∧
    (failJob 212700000000 0 "a" "boom" 37 (some (JsNumber.int 100))
      processingStore).2.jobs.map Job.next_run_at = [none] ∧
    (failJob 10 0 "a" "boom" (-2) (some (JsNumber.int 3)) processingStore).1
      = Outcome.retry ∧
    (failJob 10 0 "a" "boom" (-2) (some (JsNumber.int 3))
      processingStore).2.jobs.map Job.next_run_at = [some 10] := by
  have h38 : roundToDouble 38 = 38 := by decide
  have hm1 : roundToDouble (-1) = -1 := by decide
  refine ⟨by decide, ?_, by decide, ?_⟩
  · simp [failJob, h38, atLeast, processingStore, sampleJob, insertedRow]
    unfold datetimeNowPlusSeconds addedMillis lastJulianMillis
    norm_num
  · simp [failJob, hm1, atLeast, processingStore, sampleJob, insertedRow]
    unfold datetimeNowPlusSeconds addedMillis lastJulianMillis
    norm_num

/-- C2, amended: in the retry branch (`attempts + 1 < maxRetries`), when
`0 ≤ attempts + 1`, `attempts < 2 ^ 53` and `now + 2 ^ (attempts + 1)` seconds
is within the dates SQLite expresses, which end with the year 9999, every row with the given id, and there is
one when the id is present, gets `next_run_at = now + 2 ^ (attempts + 1)`
seconds; so a job failing at `attempts = 0` and then at `attempts = 1` with
`max_retries > 2` waits 2 and then 4 seconds; in the dead branch the
`next_run_at` of every row is what it was. -/
theorem failJob_backoff (now : ℚ) (millis : Fin 1000) (id error : String)
    (attempts maxRetries : Int) (s : Store) :
    (attempts + 1 < maxRetries → 0 ≤ attempts + 1 → attempts < 2 ^ 53 → 0 ≤ now →
      now * 1000 + (millis.val : ℚ) + 1000 * (2 : ℚ) ^ (attempts + 1) ≤ lastJulianMillis →
      ((∃ j ∈ s.jobs, j.id = id) →
        ∃ j ∈ (failJob now millis id error attempts (some (JsNumber.int maxRetries))
          s).2.jobs, j.id = id) ∧
      ∀ j ∈ (failJob now millis id error attempts (some (JsNumber.int maxRetries)) s).2.jobs,
        j.id = id → j.next_run_at = some (now + (2 : ℚ) ^ (attempts + 1))) ∧
    (∀ (later : ℚ) (laterMillis : Fin 1000), 2 < maxRetries → 0 ≤ now → 0 ≤ later →
      now * 1000 + (millis.val : ℚ) + 2000 ≤ lastJulianMillis →
      later * 1000 + (laterMillis.val : ℚ) + 4000 ≤ lastJulianMillis →
      (∀ j ∈ (failJob now millis id error 0 (some (JsNumber.int maxRetries)) s).2.jobs,
        j.id = id → j.attempts = 1 ∧ j.next_run_at = some (now + 2)) ∧
      (∀ j ∈ (failJob later laterMillis id error 1 (some (JsNumber.int maxRetries))
          (failJob now millis id error 0 (some (JsNumber.int maxRetries)) s).2).2.jobs,
        j.id = id → j.attempts = 2 ∧ j.next_run_at = some (later + 4))) ∧
    ((failJob now millis id error attempts (some (JsNumber.int maxRetries)) s).1
        = Outcome.dead →
      (failJob now millis id error attempts (some (JsNumber.int maxRetries)) s).2.jobs.map
          Job.next_run_at = s.jobs.map Job.next_run_at) := by
  refine ⟨?_, ?_, failJob_dead_next_run_at now millis id error attempts _ s⟩
  · intro hretry hnonneg hhi hnow hrange
    refine ⟨failJob_present now millis id error attempts _ s, ?_⟩
    intro j hj hjid
    exact (failJob_retry_rows now millis id error attempts maxRetries s hretry hnonneg hhi
      hnow hrange j hj hjid).2.2
  · intro later laterMillis hmax hnow hlater hr1 hr2
    constructor
    · intro j hj hjid
      have h := failJob_retry_rows now millis id error 0 maxRetries s (by omega) (by omega)
        (by norm_num) hnow (by norm_num; linarith) j hj hjid
      refine ⟨by simpa using h.2.1, ?_⟩
      rw [h.2.2]; norm_num
    · intro j hj hjid
      have h := failJob_retry_rows later laterMillis id error 1 maxRetries
        (failJob now millis id error 0 (some (JsNumber.int maxRetries)) s).2 (by omega)
        (by omega) (by norm_num) hlater (by norm_num; linarith) j hj hjid
      refine ⟨by simpa using h.2.1, ?_⟩
      rw [h.2.2]; norm_num

/-! ## fetchNextJob: the claim -/

theorem eligible_iff (now : ℚ) (j : Job) :
    eligible now j = true ↔
      j.state = JobState.pending ∧ ∃ t, j.next_run_at = some t ∧ t ≤ now := by
  unfold eligible
  cases hn : j.next_run_at with
  | none => simp
  | some t => simp

theorem sorted_head_none (l : List Job) (h : (l.insertionSort olderOrEqual).head? = none) :
    l = [] := by
  have hs : l.insertionSort olderOrEqual = [] := by
    cases hl : l.insertionSort olderOrEqual with
    | nil => rfl
    | cons a t => rw [hl] at h; simp at h
  have hp := List.perm_insertionSort olderOrEqual l
  rw [hs] at hp
  exact List.Perm.eq_nil hp.symm

theorem sorted_head_some (l : List Job) (j : Job)
    (h : (l.insertionSort olderOrEqual).head? = some j) :
    j ∈ l ∧ ∀ k ∈ l, j.created_at ≤ k.created_at := by
  cases hl : l.insertionSort olderOrEqual with
  | nil => rw [hl] at h; simp at h
  | cons a t =>
    rw [hl] at h
    simp only [List.head?_cons, Option.some.injEq] at h
    subst h
    have hp := List.perm_insertionSort olderOrEqual l
    have hsorted := List.sorted_insertionSort olderOrEqual l
    rw [hl] at hp hsorted
    refine ⟨hp.subset (List.mem_cons_self _ _), ?_⟩
    intro k hk
    have hk2 : k ∈ a :: t := hp.symm.subset hk
    rcases List.mem_cons.mp hk2 with rfl | hkt
    · exact le_refl _
    · exact List.rel_of_sorted_cons hsorted k hkt

theorem id_inj_of_nodup (l : List Job) (hnodup : (l.map Job.id).Nodup) (x y : Job)
    (hx : x ∈ l) (hy : y ∈ l) (hid : x.id = y.id) : x = y :=
  List.inj_on_of_nodup_map hnodup hx hy hid

theorem find_updated (f : Job → Job) (hf : ∀ x, (f x).id = x.id) (j : Job) (l : List Job)
    (hj : j ∈ l) (hnodup : (l.map Job.id).Nodup) :
    (l.map f).find? (fun x => x.id == j.id) = some (f j) := by
  induction l with
  | nil => simp at hj
  | cons a t ih =>
    by_cases ha : a.id = j.id
    · have : a = j :=
        id_inj_of_nodup (a :: t) hnodup a j (List.mem_cons_self _ _) hj ha
      subst this
      have hb : ((f a).id == a.id) = true := by simp [hf]
      rw [List.map_cons, List.find?_cons, hb]
    · have hjt : j ∈ t := by
        rcases List.mem_cons.mp hj with rfl | h
        · exact absurd rfl ha
        · exact h
      have hn : (t.map Job.id).Nodup := by
        simp only [List.map_cons, List.nodup_cons] at hnodup
        exact hnodup.2
      have hb : ((f a).id == j.id) = false := by simp [hf, ha]
      rw [List.map_cons, List.find?_cons, hb]
      exact ih hjt hn

/-- The row selected by the sub-query of `fetchNextJob`, when there is one: it
is in the table, eligible, and no eligible row is older. -/
theorem selectNextId_some (now : ℚ) (s : Store) (id : String)
    (h : selectNextId now s = some id) :
    ∃ j ∈ s.jobs, j.id = id ∧ eligible now j = true ∧
      ∀ k ∈ s.jobs, eligible now k = true → j.created_at ≤ k.created_at := by
  unfold selectNextId at h
  cases hh : ((s.jobs.filter (eligible now)).insertionSort olderOrEqual).head? with
  | none => rw [hh] at h; simp at h
  | some j =>
    rw [hh] at h
    simp only [Option.map_some', Option.some.injEq] at h
    obtain ⟨hmem, hmin⟩ := sorted_head_some _ j hh
    have hj := List.mem_filter.mp hmem
    exact ⟨j, hj.1, h, hj.2, fun k hk hke => hmin k (List.mem_filter.mpr ⟨hk, hke⟩)⟩

theorem selectNextId_none (now : ℚ) (s : Store) (h : selectNextId now s = none) :
    s.jobs.filter (eligible now) = [] := by
  unfold selectNextId at h
  apply sorted_head_none
  simpa using h

/-- What a successful claim does, for a store with distinct ids. -/
theorem fetchNextJob_some (now : ℚ) (s : Store) (hnodup : (s.jobs.map Job.id).Nodup)
    (id : String) (h : selectNextId now s = some id) :
    ∃ j ∈ s.jobs, j.id = id ∧ eligible now j = true ∧
      (∀ k ∈ s.jobs, eligible now k = true → j.created_at ≤ k.created_at) ∧
      fetchNextJob now s = (some (claimedRow now j),
        { s with jobs := s.jobs.map (fun x => if x = j then claimedRow now j else x) }) := by
  obtain ⟨j, hj, hid, helig, hmin⟩ := selectNextId_some now s id h
  refine ⟨j, hj, hid, helig, hmin, ?_⟩
  have hmap : s.jobs.map (fun x =>
      if x.id = id then { x with state := JobState.processing, updated_at := now } else x) =
      s.jobs.map (fun x => if x = j then claimedRow now j else x) := by
    apply List.map_congr_left
    intro x hx
    by_cases hxj : x = j
    · subst hxj; simp [hid, claimedRow]
    · have : x.id ≠ id := fun hxid =>
        hxj (id_inj_of_nodup s.jobs hnodup x j hx hj (hxid.trans hid.symm))
      simp [hxj, this]
  unfold fetchNextJob
  simp only [h]
  rw [hmap]
  have hfind := find_updated (fun x => if x = j then claimedRow now j else x)
    (fun x => by by_cases hxj : x = j <;> simp [hxj, claimedRow]) j s.jobs hj hnodup
  simp only [if_true] at hfind
  rw [← hid, hfind]

theorem fetchNextJob_none (now : ℚ) (s : Store)
    (h : ∀ k ∈ s.jobs,
      ¬ (k.state = JobState.pending ∧ ∃ t, k.next_run_at = some t ∧ t ≤ now)) :
    fetchNextJob now s = (none, s) := by
  cases hsel : selectNextId now s with
  | none => unfold fetchNextJob; simp only [hsel]
  | some id =>
    obtain ⟨j, hj, _, helig, _⟩ := selectNextId_some now s id hsel
    exact absurd ((eligible_iff now j).mp helig) (h j hj)

/-- C3: for a store with distinct ids, when some job is pending with
`next_run_at ≤ now`, `fetchNextJob` returns the updated row of a job `j` of the
table that was pending with `next_run_at ≤ now` and whose `created_at` is
least among such jobs, so that of two eligible jobs the one created later is
not returned; `j` is stored with state `processing` and every other row, and
the configuration, is as before.  When no job is pending with
`next_run_at ≤ now` it returns none and the store is unchanged.  A
`next_run_at` that is NULL is not `≤ now`. -/
theorem fetchNextJob_claims_oldest (now : ℚ) (s : Store)
    (hnodup : (s.jobs.map Job.id).Nodup) :
    ((∀ k ∈ s.jobs,
        ¬ (k.state = JobState.pending ∧ ∃ t, k.next_run_at = some t ∧ t ≤ now)) →
      fetchNextJob now s = (none, s)) ∧
    ((∃ k ∈ s.jobs, k.state = JobState.pending ∧ ∃ t, k.next_run_at = some t ∧ t ≤ now) →
      ∃ j ∈ s.jobs, j.state = JobState.pending ∧ (∃ t, j.next_run_at = some t ∧ t ≤ now) ∧
        (∀ k ∈ s.jobs, k.state = JobState.pending → (∃ t, k.next_run_at = some t ∧ t ≤ now) →
          j.created_at ≤ k.created_at) ∧
        (∀ a ∈ s.jobs, ∀ b ∈ s.jobs, a.state = JobState.pending →
          (∃ t, a.next_run_at = some t ∧ t ≤ now) →
          a.created_at < b.created_at → j ≠ b) ∧
        (fetchNextJob now s).1 = some (claimedRow now j) ∧
        (claimedRow now j).state = JobState.processing ∧
        (fetchNextJob now s).2.config = s.config ∧
        (fetchNextJob now s).2.jobs.length = s.jobs.length ∧
        ∀ (i : Nat) (x : Job), s.jobs[i]? = some x →
          (fetchNextJob now s).2.jobs[i]? = some (if x = j then claimedRow now j else x)) := by
  refine ⟨fetchNextJob_none now s, ?_⟩
  rintro ⟨k, hk, hkelig⟩
  cases hsel : selectNextId now s with
  | none =>
    have hnil := selectNextId_none now s hsel
    have : k ∈ s.jobs.filter (eligible now) :=
      List.mem_filter.mpr ⟨hk, (eligible_iff now k).mpr hkelig⟩
    rw [hnil] at this
    simp at this
  | some id =>
    obtain ⟨j, hj, _, helig, hmin, hfetch⟩ := fetchNextJob_some now s hnodup id hsel
    have hje := (eligible_iff now j).mp helig
    refine ⟨j, hj, hje.1, hje.2, ?_, ?_, ?_, rfl, ?_, ?_, ?_⟩
    · intro k hk hs ht
      exact hmin k hk ((eligible_iff now k).mpr ⟨hs, ht⟩)
    · intro a ha b _ hs ht hlt hjb
      have := hmin a ha ((eligible_iff now a).mpr ⟨hs, ht⟩)
      rw [hjb] at this
      exact absurd hlt (not_lt.mpr this)
    · rw [hfetch]
    · rw [hfetch]
    · rw [hfetch]; simp
    · intro i x hx
      rw [hfetch]
      simp [List.getElem?_map, hx]

/-! ## Exclusive claims -/

theorem claimedRow_not_eligible (now : ℚ) (j : Job) : eligible now (claimedRow now j) = false := by
  simp [eligible, claimedRow]

theorem map_claim_ids (now : ℚ) (j : Job) (l : List Job) :
    (l.map (fun x => if x = j then claimedRow now j else x)).map Job.id = l.map Job.id := by
  induction l with
  | nil => rfl
  | cons a t ih =>
    simp only [List.map_cons, ih]
    by_cases h : a = j
    · subst h; simp [claimedRow]
    · simp [h]

theorem map_claim_absent (now : ℚ) (j : Job) (l : List Job) (h : j ∉ l) :
    l.map (fun x => if x = j then claimedRow now j else x) = l := by
  induction l with
  | nil => rfl
  | cons a t ih =>
    have ha : a ≠ j := fun e => h (e ▸ List.mem_cons_self _ _)
    have ht : j ∉ t := fun e => h (List.mem_cons_of_mem _ e)
    simp [ha, ih ht]

/-- Claiming the eligible row `j` removes exactly `j` from the eligible rows. -/
theorem eligible_after_claim (now : ℚ) (j : Job) (l : List Job) (hnd : l.Nodup)
    (hj : j ∈ l) (helig : eligible now j = true) :
    (l.filter (eligible now)).Perm
      (j :: (l.map (fun x => if x = j then claimedRow now j else x)).filter (eligible now)) := by
  induction l with
  | nil => simp at hj
  | cons a t ih =>
    have hnd2 := List.nodup_cons.mp hnd
    by_cases ha : a = j
    · subst ha
      rw [List.map_cons, map_claim_absent now a t hnd2.1]
      simp [List.filter_cons, helig, claimedRow_not_eligible]
    · have hjt : j ∈ t := by
        rcases List.mem_cons.mp hj with h | h
        · exact absurd h.symm ha
        · exact h
      have ih2 := ih hnd2.2 hjt
      by_cases hae : eligible now a = true
      · simp only [List.map_cons, ha, if_false, List.filter_cons, hae, if_true]
        exact (List.Perm.cons a ih2).trans (List.Perm.swap j a _)
      · simp only [List.map_cons, ha, if_false, List.filter_cons, hae]
        exact ih2

/-- The results of a run of claims: the updated rows of the eligible jobs, each
once, in some order, as long as there are any, and none afterwards. -/
theorem runClaims_results (now : ℚ) (schedule : List Nat) :
    ∀ s : Store, (s.jobs.map Job.id).Nodup →
    ∃ L : List Job, L.Perm ((s.jobs.filter (eligible now)).map (claimedRow now)) ∧
      (runClaims now schedule s).1.map Prod.snd =
        (L.take schedule.length).map some ++
          List.replicate (schedule.length - L.length) none := by
  induction schedule with
  | nil => intro s _; exact ⟨_, List.Perm.refl _, by simp [runClaims]⟩
  | cons w ws ih =>
    intro s hnodup
    cases hsel : selectNextId now s with
    | none =>
      have hnil := selectNextId_none now s hsel
      have hfetch : fetchNextJob now s = (none, s) := by
        unfold fetchNextJob; simp only [hsel]
      obtain ⟨L, hL, hR⟩ := ih s hnodup
      rw [hnil] at hL
      have hLnil : L = [] := List.Perm.eq_nil hL
      subst hLnil
      refine ⟨[], by rw [hnil]; exact List.Perm.refl _, ?_⟩
      simp only [runClaims, hfetch, List.map_cons, hR]
      simp [List.replicate_succ]
    | some id =>
      obtain ⟨j, hj, _, helig, _, hfetch⟩ := fetchNextJob_some now s hnodup id hsel
      have hnodup2 : ((fetchNextJob now s).2.jobs.map Job.id).Nodup := by
        rw [hfetch]
        show ((s.jobs.map (fun x => if x = j then claimedRow now j else x)).map Job.id).Nodup
        rw [map_claim_ids]; exact hnodup
      obtain ⟨L, hL, hR⟩ := ih (fetchNextJob now s).2 hnodup2
      have hperm := eligible_after_claim now j s.jobs (List.Nodup.of_map _ hnodup) hj helig
      refine ⟨claimedRow now j :: L, ?_, ?_⟩
      · have h1 : (claimedRow now j :: L).Perm
            (claimedRow now j :: ((fetchNextJob now s).2.jobs.filter (eligible now)).map
              (claimedRow now)) := List.Perm.cons _ hL
        refine h1.trans ?_
        rw [hfetch]
        exact (List.Perm.map (claimedRow now) hperm).symm
      · simp only [runClaims, List.map_cons, hR]
        rw [hfetch]
        simp

theorem runClaims_workers (now : ℚ) (schedule : List Nat) :
    ∀ s : Store, (runClaims now schedule s).1.map Prod.fst = schedule := by
  induction schedule with
  | nil => intro s; rfl
  | cons w ws ih => intro s; simp [runClaims, ih]

theorem filterMap_some_append_none (L : List Job) (m : Nat) :
    (L.map some ++ List.replicate m (none : Option Job)).filterMap id = L := by
  induction m with
  | zero => simp
  | succ m ih =>
    rw [List.replicate_succ', ← List.append_assoc, List.filterMap_append, ih]
    simp

/-- C4: for a store with distinct ids and any schedule of claiming workers,
all claims running as atomic steps at time `now`: no job id is returned twice;
with `n` the number of eligible jobs, each of the first `n` claims returns a
job and every later claim returns none; every job returned is the updated row
of an eligible job; and once the schedule has at least `n` claims the jobs
returned are exactly the updated rows of the eligible jobs. -/
theorem runClaims_exclusive (now : ℚ) (schedule : List Nat) (s : Store)
    (hnodup : (s.jobs.map Job.id).Nodup) :
    (runClaims now schedule s).1.map Prod.fst = schedule ∧
    (((runClaims now schedule s).1.filterMap Prod.snd).map Job.id).Nodup ∧
    (∀ i : Nat, i < schedule.length → i < (s.jobs.filter (eligible now)).length →
      ∃ j, ((runClaims now schedule s).1.map Prod.snd)[i]? = some (some j)) ∧
    (∀ i : Nat, i < schedule.length → (s.jobs.filter (eligible now)).length ≤ i →
      ((runClaims now schedule s).1.map Prod.snd)[i]? = some none) ∧
    ((runClaims now schedule s).1.filterMap Prod.snd).Subperm
      ((s.jobs.filter (eligible now)).map (claimedRow now)) ∧
    ((s.jobs.filter (eligible now)).length ≤ schedule.length →
      ((runClaims now schedule s).1.filterMap Prod.snd).Perm
        ((s.jobs.filter (eligible now)).map (claimedRow now))) := by
  obtain ⟨L, hL, hR⟩ := runClaims_results now schedule s hnodup
  have hlen : L.length = (s.jobs.filter (eligible now)).length := by
    rw [hL.length_eq, List.length_map]
  have hret : (runClaims now schedule s).1.filterMap Prod.snd = L.take schedule.length := by
    have h1 : (runClaims now schedule s).1.filterMap Prod.snd =
        ((runClaims now schedule s).1.map Prod.snd).filterMap id := by
      rw [List.filterMap_map]; rfl
    rw [h1, hR, filterMap_some_append_none]
  have hidsE : (((s.jobs.filter (eligible now)).map (claimedRow now)).map Job.id).Nodup := by
    have h2 : ((s.jobs.filter (eligible now)).map (claimedRow now)).map Job.id =
        (s.jobs.filter (eligible now)).map Job.id := by
      rw [List.map_map]; rfl
    rw [h2]
    exact List.Nodup.sublist (List.Sublist.map _ (List.filter_sublist _)) hnodup
  have hidsL : (L.map Job.id).Nodup := (List.Perm.nodup_iff (List.Perm.map _ hL)).mpr hidsE
  refine ⟨runClaims_workers now schedule s, ?_, ?_, ?_, ?_, ?_⟩
  · rw [hret]
    exact List.Nodup.sublist (List.Sublist.map _ (List.take_sublist _ _)) hidsL
  · intro i hi hin
    rw [hR]
    have hiL : i < L.length := by omega
    have hit : i < ((L.take schedule.length).map some).length := by
      simp only [List.length_map, List.length_take]; omega
    rw [List.getElem?_append_left hit]
    have hit2 : i < (L.take schedule.length).length := by simpa using hit
    exact ⟨(L.take schedule.length)[i], by
      rw [List.getElem?_map, List.getElem?_eq_getElem hit2]; rfl⟩
  · intro i hi hin
    rw [hR]
    have hit : ((L.take schedule.length).map some).length ≤ i := by
      simp only [List.length_map, List.length_take]; omega
    rw [List.getElem?_append_right hit]
    have : i - ((L.take schedule.length).map some).length < schedule.length - L.length := by
      simp only [List.length_map, List.length_take]; omega
    rw [List.getElem?_replicate, if_pos this]
  · rw [hret]
    exact (List.Sublist.subperm (List.take_sublist _ _)).trans hL.subperm
  · intro hn
    rw [hret, List.take_of_length_le (by omega)]
    exact hL

/-! ## The row at a given position, before and after one operation -/

theorem getElem_map_append (l extra : List Job) (f : Job → Job) (i : Nat) (x : Job)
    (h : l[i]? = some x) : (l.map f ++ extra)[i]? = some (f x) := by
  have hi : i < l.length := by
    rcases Nat.lt_or_ge i l.length with hlt | hge
    · exact hlt
    · rw [List.getElem?_eq_none hge] at h; simp at h
  rw [List.getElem?_append_left (by simpa using hi), List.getElem?_map, h]
  rfl

theorem getElem_map_row (l : List Job) (f : Job → Job) (i : Nat) (x : Job)
    (h : l[i]? = some x) : (l.map f)[i]? = some (f x) := by
  rw [List.getElem?_map, h]; rfl

theorem enqueue_row (id command : String) (now : ℚ) (s : Store) (i : Nat) (x : Job)
    (h : s.jobs[i]? = some x) : (enqueue id now command s).2.jobs[i]? = some x := by
  have := getElem_map_append s.jobs [insertedRow id command (enqueueMaxRetries s) now]
    (fun j => j) i x h
  simpa [enqueue] using this

theorem completeJob_row (now : ℚ) (id : String) (s : Store) (i : Nat) (x : Job)
    (h : s.jobs[i]? = some x) :
    (completeJob now id s).jobs[i]? =
      some (if x.id = id then { x with state := JobState.completed, updated_at := now }
        else x) :=
  getElem_map_row s.jobs _ i x h

theorem dlqRetry_row (now : ℚ) (id : String) (s : Store) (i : Nat) (x : Job)
    (h : s.jobs[i]? = some x) :
    (dlqRetry now id s).2.jobs[i]? =
      some (if x.id = id ∧ x.state = JobState.dead then
        { x with state := JobState.pending, attempts := 0, next_run_at := some now }
        else x) :=
  getElem_map_row s.jobs _ i x h

/-- After `fetchNextJob` a row is either what it was, or it had the selected id
and is now `processing`; with distinct ids the second case is the claim of an
eligible row. -/
theorem fetchNextJob_row (now : ℚ) (s : Store) (i : Nat) (x : Job)
    (h : s.jobs[i]? = some x) :
    (fetchNextJob now s).2.jobs[i]? = some x ∨
    ((fetchNextJob now s).2.jobs[i]? = some (claimedRow now x) ∧
      selectNextId now s = some x.id) := by
  cases hsel : selectNextId now s with
  | none => left; unfold fetchNextJob; simp only [hsel]; exact h
  | some id =>
    have hrow : (fetchNextJob now s).2.jobs[i]? =
        some (if x.id = id then claimedRow now x else x) := by
      unfold fetchNextJob; simp only [hsel]
      exact getElem_map_row s.jobs _ i x h
    by_cases hx : x.id = id
    · right; rw [hrow]; simp [hx]
    · left; rw [hrow]; simp [hx]

theorem mem_of_getElem (l : List Job) (i : Nat) (x : Job) (h : l[i]? = some x) : x ∈ l :=
  List.getElem?_mem h

theorem fetchNextJob_row_eligible (now : ℚ) (s : Store) (hnodup : (s.jobs.map Job.id).Nodup)
    (i : Nat) (x : Job) (h : s.jobs[i]? = some x) :
    (fetchNextJob now s).2.jobs[i]? = some x ∨
    ((fetchNextJob now s).2.jobs[i]? = some (claimedRow now x) ∧ eligible now x = true) := by
  rcases fetchNextJob_row now s i x h with h1 | ⟨h1, hsel⟩
  · exact Or.inl h1
  · right
    refine ⟨h1, ?_⟩
    obtain ⟨j, hj, hid, helig, _⟩ := selectNextId_some now s x.id hsel
    have : j = x := id_inj_of_nodup s.jobs hnodup j x hj (mem_of_getElem _ i x h) hid
    rw [← this]; exact helig

/-! ## enqueue: the empty command -/

/-- The JSON branch of the `enqueue` action rejects an empty `command` field
and leaves the store as it is. -/
theorem enqueueAction_json_empty (jsonCommand : String → Except String (Option String))
    (id : String) (now : ℚ) (s : Store)
    (h : jsonCommand "\x7b\"command\":\"\"\x7d" = Except.ok (some "")) :
    enqueueAction jsonCommand id now ["\x7b\"command\":\"\"\x7d"] s =
      (Except.error "Field 'command' is required", s) := by
  have hraw : " ".intercalate ["\x7b\"command\":\"\"\x7d"] = "\x7b\"command\":\"\"\x7d" := by
    decide
  have hbrace : (match ("\x7b\"command\":\"\"\x7d").toList.dropWhile isJsWhitespace with
      | c :: _ => c.toNat == 0x7B
      | [] => false) = true := by decide
  unfold enqueueAction
  simp only [hraw, hbrace, h]
  simp

/-- C5: `enqueue("")` raises nothing and inserts a pending job whose command is
the empty string, and the `enqueue` action of the command line, run with the
single argument `""`, reaches it. -/
theorem enqueue_empty_command_inserts
    (jsonCommand : String → Except String (Option String))
    (id : String) (now : ℚ) (s : Store) :
    (enqueue id now "" s).1.command = "" ∧
    (enqueue id now "" s).1.state = JobState.pending ∧
    (enqueue id now "" s).2.jobs = s.jobs ++ [(enqueue id now "" s).1] ∧
    (enqueue id now "" s).2.jobs.length = s.jobs.length + 1 ∧
    enqueueAction jsonCommand id now [""] s =
      (Except.ok (enqueue id now "" s).1, (enqueue id now "" s).2) := by
  have hraw : " ".intercalate [""] = "" := by decide
  have hbrace : (match ("").toList.dropWhile isJsWhitespace with
      | c :: _ => c.toNat == 0x7B
      | [] => false) = false := by decide
  refine ⟨rfl, rfl, rfl, by simp [enqueue], ?_⟩
  unfold enqueueAction
  simp only [hraw, hbrace]
  simp

/-! ## max_retries is a snapshot -/

/-- One operation leaves the id and the `max_retries` of every row as they
were, at the same position of the table. -/
theorem step_keeps_max_retries (t : ℚ) (ms : Fin 1000) (op : Op) (s : Store) (i : Nat)
    (x : Job) (h : s.jobs[i]? = some x) :
    ∃ y, (step t ms op s).jobs[i]? = some y ∧ y.id = x.id ∧
      y.max_retries = x.max_retries := by
  cases op with
  | enqueue id command => exact ⟨x, enqueue_row id command t s i x h, rfl, rfl⟩
  | fetchNextJob =>
    rcases fetchNextJob_row t s i x h with h1 | ⟨h1, _⟩
    · exact ⟨x, h1, rfl, rfl⟩
    · exact ⟨claimedRow t x, h1, rfl, rfl⟩
  | completeJob id =>
    refine ⟨_, completeJob_row t id s i x h, ?_, ?_⟩ <;>
      by_cases hx : x.id = id <;> simp [hx]
  | failJob id error attempts maxRetries =>
    refine ⟨_, failJob_row t ms id error attempts (some (JsNumber.int maxRetries)) s i x h,
      ?_, ?_⟩ <;>
      by_cases hx : x.id = id <;>
      by_cases hb : atLeast (roundToDouble (attempts + 1)) (some (JsNumber.int maxRetries))
        = true <;> simp [hx, hb]
  | dlqRetry id =>
    refine ⟨_, dlqRetry_row t id s i x h, ?_, ?_⟩ <;>
      by_cases hx : x.id = id ∧ x.state = JobState.dead <;> simp [hx]
  | configSet key value => exact ⟨x, h, rfl, rfl⟩

theorem runOps_keeps_max_retries (ops : List (ℚ × Fin 1000 × Op)) :
    ∀ (s : Store) (i : Nat) (x : Job), s.jobs[i]? = some x →
    ∃ y, (runOps ops s).jobs[i]? = some y ∧ y.id = x.id ∧ y.max_retries = x.max_retries := by
  induction ops with
  | nil => intro s i x h; exact ⟨x, h, rfl, rfl⟩
  | cons p ps ih =>
    intro s i x h
    obtain ⟨y, hy, hid, hmr⟩ := step_keeps_max_retries p.1 p.2.1 p.2.2 s i x h
    obtain ⟨z, hz, hid2, hmr2⟩ := ih (step p.1 p.2.1 p.2.2 s) i y hy
    exact ⟨z, hz, hid2.trans hid, hmr2.trans hmr⟩

theorem configGet_configSet (key value : String) (s : Store) :
    configGet (configSet key value s) key = some value := by
  have h : ∀ l : List (String × String), (∀ kv ∈ l, kv.1 ≠ key) →
      (l ++ [(key, value)]).find? (fun kv => kv.1 == key) = some (key, value) := by
    intro l
    induction l with
    | nil => intro _; simp
    | cons a t ih =>
      intro hl
      have ha : (a.1 == key) = false := by simpa using hl a (List.mem_cons_self _ _)
      rw [List.cons_append, List.find?_cons, ha]
      exact ih (fun kv hkv => hl kv (List.mem_cons_of_mem _ hkv))
  unfold configGet configSet
  rw [h]
  · rfl
  · intro kv hkv
    have := (List.mem_filter.mp hkv).2
    simpa using this

theorem enqueue_new_row (id command : String) (now : ℚ) (s : Store) :
    (enqueue id now command s).2.jobs[s.jobs.length]? = some (enqueue id now command s).1 := by
  simp [enqueue]

/-- C6, as stated, fails: under the configuration entry "9007199254740993",
whose integer value is `2 ^ 53 + 1`, the job enqueued has
`max_retries = 9007199254740992`, the double nearest to it. -/
theorem enqueue_max_retries_rounded :
    configGet bigConfigStore "max_retries" = some "9007199254740993" ∧
    parsedInteger "9007199254740993" = some 9007199254740993 ∧
    (enqueue "c" 1 "echo hello" bigConfigStore).1.max_retries
      = some (JsNumber.int 9007199254740992) := by
  decide

/-- C6, amended: the job returned by `enqueue` has `max_retries` equal to what
`parseInt` gives for the `max_retries` configuration entry, which is the integer
the entry reads as when that is between `-2 ^ 53` and `2 ^ 53`, or 3 when there
is no such entry; the new row is stored at the end of the table; and after any
sequence of later operations (enqueue, fetchNextJob, completeJob, failJob, dlq
retry, config set) the row at that position has the same id and the same
`max_retries`.  So a job enqueued under the configuration value "3" still has
`max_retries = 3` after the configuration is set to "5", while a job enqueued
afterwards gets 5. -/
theorem enqueue_snapshots_max_retries (id command : String) (now : ℚ) (s : Store) :
    (∀ v : String, configGet s "max_retries" = some v →
      (enqueue id now command s).1.max_retries = parseInt v) ∧
    (∀ (v : String) (n : Int), configGet s "max_retries" = some v →
      parsedInteger v = some n → -(2 ^ 53) ≤ n → n ≤ 2 ^ 53 →
      (enqueue id now command s).1.max_retries = some (JsNumber.int n)) ∧
    (configGet s "max_retries" = none →
      (enqueue id now command s).1.max_retries = some (JsNumber.int 3)) ∧
    (enqueue id now command s).2.jobs[s.jobs.length]? = some (enqueue id now command s).1 ∧
    (∀ ops : List (ℚ × Fin 1000 × Op), ∃ y,
      (runOps ops (enqueue id now command s).2).jobs[s.jobs.length]? = some y ∧
      y.id = id ∧ y.max_retries = (enqueue id now command s).1.max_retries) ∧
    (configGet s "max_retries" = some "3" →
      ∀ (id2 command2 : String) (later : ℚ),
        (∃ y, (configSet "max_retries" "5" (enqueue id now command s).2).jobs[s.jobs.length]?
            = some y ∧ y.id = id ∧ y.max_retries = some (JsNumber.int 3)) ∧
        (enqueue id2 later command2
          (configSet "max_retries" "5" (enqueue id now command s).2)).1.max_retries
            = some (JsNumber.int 5)) := by
  have hnew := enqueue_new_row id command now s
  have hset : ∀ v : String, configGet s "max_retries" = some v →
      (enqueue id now command s).1.max_retries = parseInt v := by
    intro v hv
    simp [enqueue, insertedRow, enqueueMaxRetries, hv]
  refine ⟨hset, ?_, ?_, hnew, ?_, ?_⟩
  · intro v n hv hn hlo hhi
    rw [hset v hv]
    unfold parseInt
    rw [hn, Option.map_some', toNumber_exact n hlo hhi]
  · intro hv
    simp [enqueue, insertedRow, enqueueMaxRetries, hv]
  · intro ops
    obtain ⟨y, hy, hid, hmr⟩ := runOps_keeps_max_retries ops _ _ _ hnew
    exact ⟨y, hy, hid, hmr⟩
  · intro hv id2 command2 later
    have h3 : parseInt "3" = some (JsNumber.int 3) := by decide
    have h5 : parseInt "5" = some (JsNumber.int 5) := by decide
    constructor
    · refine ⟨(enqueue id now command s).1, hnew, rfl, ?_⟩
      rw [hset "3" hv, h3]
    · have hget := configGet_configSet "max_retries" "5" (enqueue id now command s).2
      show enqueueMaxRetries (configSet "max_retries" "5" (enqueue id now command s).2)
        = some (JsNumber.int 5)
      unfold enqueueMaxRetries
      rw [hget]
      exact h5

/-! ## The dead-letter retry -/

theorem dlqRetry_reports (now : ℚ) (id : String) (s : Store) :
    (dlqRetry now id s).1 = true ↔ ∃ j ∈ s.jobs, j.id = id ∧ j.state = JobState.dead := by
  unfold dlqRetry
  simp only [decide_eq_true_eq, gt_iff_lt, List.length_pos]
  constructor
  · intro hne
    obtain ⟨j, hj⟩ := List.exists_mem_of_ne_nil _ hne
    have := List.mem_filter.mp hj
    exact ⟨j, this.1, by simpa using this.2⟩
  · rintro ⟨j, hj, hid, hst⟩
    apply List.ne_nil_of_mem
    exact List.mem_filter.mpr ⟨hj, by simp [hid, hst]⟩

theorem dlqRetry_noop (now : ℚ) (id : String) (s : Store)
    (h : ¬ ∃ j ∈ s.jobs, j.id = id ∧ j.state = JobState.dead) :
    (dlqRetry now id s).2 = s := by
  have hmap : s.jobs.map (fun j =>
      if j.id = id ∧ j.state = JobState.dead then
        { j with state := JobState.pending, attempts := 0, next_run_at := some now }
      else j) = s.jobs.map (fun j => j) := by
    apply List.map_congr_left
    intro x hx
    have : ¬ (x.id = id ∧ x.state = JobState.dead) := fun hc => h ⟨x, hx, hc⟩
    simp [this]
  unfold dlqRetry
  simp only [hmap, List.map_id']

/-- C7: the dead-letter retry of an id reports success exactly when a job with
that id exists and is dead; it raises nothing; each row that has the id and is
dead becomes pending with `attempts = 0` and `next_run_at = now`, every other
row and the configuration are as before; and when no job with that id is dead
(the id is unknown, or its job is pending, processing or completed) it reports
"not found or not dead" and the store is unchanged. -/
theorem dlqRetry_spec (now : ℚ) (id : String) (s : Store) :
    ((dlqRetry now id s).1 = true ↔ ∃ j ∈ s.jobs, j.id = id ∧ j.state = JobState.dead) ∧
    (dlqRetry now id s).2.jobs.length = s.jobs.length ∧
    (dlqRetry now id s).2.config = s.config ∧
    (∀ (i : Nat) (x : Job), s.jobs[i]? = some x →
      ∃ y, (dlqRetry now id s).2.jobs[i]? = some y ∧
        (x.id = id ∧ x.state = JobState.dead →
          y = { x with state := JobState.pending, attempts := 0, next_run_at := some now }) ∧
        (¬ (x.id = id ∧ x.state = JobState.dead) → y = x)) ∧
    ((¬ ∃ j ∈ s.jobs, j.id = id ∧ j.state = JobState.dead) →
      dlqRetry now id s = (false, s)) ∧
    ((∀ j ∈ s.jobs, j.id = id →
        j.state = JobState.pending ∨ j.state = JobState.processing ∨
        j.state = JobState.completed) →
      dlqRetry now id s = (false, s)) := by
  have hno : (¬ ∃ j ∈ s.jobs, j.id = id ∧ j.state = JobState.dead) →
      dlqRetry now id s = (false, s) := by
    intro h
    have h1 : (dlqRetry now id s).1 = false := by
      rw [← Bool.not_eq_true]; exact fun hc => h ((dlqRetry_reports now id s).mp hc)
    exact Prod.ext h1 (dlqRetry_noop now id s h)
  refine ⟨dlqRetry_reports now id s, by simp [dlqRetry], rfl, ?_, hno, ?_⟩
  · intro i x hx
    refine ⟨_, dlqRetry_row now id s i x hx, ?_, ?_⟩
    · intro h; simp [h]
    · intro h; simp [h]
  · intro h
    apply hno
    rintro ⟨j, hj, hid, hst⟩
    rcases h j hj hid with h1 | h1 | h1 <;> rw [hst] at h1 <;> exact absurd h1 (by decide)

/-! ## One iteration of the worker loop -/

theorem workerIteration_idle (exec : String → ExecResult) (t1 t2 : ℚ) (ms : Fin 1000)
    (s : Store) (h : selectNextId t1 s = none) : workerIteration exec t1 t2 ms s = s := by
  have hfetch : fetchNextJob t1 s = (none, s) := by
    unfold fetchNextJob; simp only [h]
  unfold workerIteration
  rw [hfetch]

theorem workerIteration_claim (exec : String → ExecResult) (t1 t2 : ℚ) (ms : Fin 1000)
    (s : Store) (hnodup : (s.jobs.map Job.id).Nodup) (id : String)
    (h : selectNextId t1 s = some id) :
    ∃ j ∈ s.jobs, j.id = id ∧ eligible t1 j = true ∧
      workerIteration exec t1 t2 ms s =
        recordOutcome exec t2 ms (claimedRow t1 j)
          { s with jobs := s.jobs.map (fun x => if x = j then claimedRow t1 j else x) } := by
  obtain ⟨j, hj, hid, helig, _, hfetch⟩ := fetchNextJob_some t1 s hnodup id h
  refine ⟨j, hj, hid, helig, ?_⟩
  unfold workerIteration
  rw [hfetch]

/-- The row at a position after one iteration of a worker, for a store with
distinct ids: it is what it was, unless it is the row the claim selected; that
row was eligible, and it ends `completed` with its `attempts` as before when
the command succeeded, with `attempts` the double sum of its `attempts` and 1,
`dead` or `pending`, when the command failed, and as the claim left it when
`exec` threw. -/
theorem workerIteration_row (exec : String → ExecResult) (t1 t2 : ℚ) (ms : Fin 1000)
    (s : Store) (hnodup : (s.jobs.map Job.id).Nodup) (i : Nat) (x : Job)
    (h : s.jobs[i]? = some x) :
    ∃ y, (workerIteration exec t1 t2 ms s).jobs[i]? = some y ∧ y.id = x.id ∧
      ((selectNextId t1 s ≠ some x.id ∧ y = x) ∨
        (selectNextId t1 s = some x.id ∧ eligible t1 x = true ∧
          ((∃ out, exec x.command = ExecResult.success out ∧
              y.state = JobState.completed ∧ y.attempts = x.attempts) ∨
           (∃ err, exec x.command = ExecResult.failure err ∧
              y.attempts = roundToDouble (x.attempts + 1) ∧
              (y.state = JobState.dead ∨ y.state = JobState.pending)) ∨
           (exec x.command = ExecResult.threw ∧ y = claimedRow t1 x)))) := by
  cases hsel : selectNextId t1 s with
  | none =>
    rw [workerIteration_idle exec t1 t2 ms s hsel]
    exact ⟨x, h, rfl, Or.inl ⟨by simp, rfl⟩⟩
  | some id =>
    obtain ⟨j, hj, hjid, helig, hw⟩ := workerIteration_claim exec t1 t2 ms s hnodup id hsel
    rw [hw]
    have hrow1 : (s.jobs.map (fun x => if x = j then claimedRow t1 j else x))[i]? =
        some (if x = j then claimedRow t1 j else x) := getElem_map_row s.jobs _ i x h
    have hxmem : x ∈ s.jobs := mem_of_getElem _ i x h
    by_cases hxj : x = j
    · subst hxj
      simp only [if_true] at hrow1
      unfold recordOutcome
      cases hexec : exec (claimedRow t1 x).command with
      | success out =>
        simp only []
        have hr := completeJob_row t2 (claimedRow t1 x).id
          { s with jobs := s.jobs.map (fun y => if y = x then claimedRow t1 x else y) }
          i (claimedRow t1 x) hrow1
        simp only [if_true] at hr
        exact ⟨_, hr, rfl, Or.inr ⟨by rw [hjid], helig, Or.inl ⟨out, hexec, rfl, rfl⟩⟩⟩
      | failure err =>
        simp only []
        have hr := failJob_row t2 ms (claimedRow t1 x).id err (claimedRow t1 x).attempts
          (claimedRow t1 x).max_retries
          { s with jobs := s.jobs.map (fun y => if y = x then claimedRow t1 x else y) }
          i (claimedRow t1 x) hrow1
        simp only [if_true] at hr
        refine ⟨_, hr, ?_, Or.inr ⟨by rw [hjid], helig, Or.inr (Or.inl ⟨err, hexec, ?_, ?_⟩)⟩⟩
        · split <;> rfl
        · split <;> rfl
        · split
          · exact Or.inl rfl
          · exact Or.inr rfl
      | threw =>
        simp only []
        exact ⟨_, hrow1, rfl, Or.inr ⟨by rw [hjid], helig, Or.inr (Or.inr ⟨hexec, rfl⟩)⟩⟩
    · simp only [hxj, if_false] at hrow1
      have hid : x.id ≠ (claimedRow t1 j).id := fun hc =>
        hxj (id_inj_of_nodup s.jobs hnodup x j hxmem hj hc)
      have hsel2 : some id ≠ some x.id := by
        intro hc
        exact hid ((Option.some.inj hc).symm.trans hjid.symm)
      unfold recordOutcome
      cases hexec : exec (claimedRow t1 j).command with
      | success out =>
        simp only []
        have hr := completeJob_row t2 (claimedRow t1 j).id
          { s with jobs := s.jobs.map (fun y => if y = j then claimedRow t1 j else y) }
          i x hrow1
        simp only [hid, if_false] at hr
        exact ⟨x, hr, rfl, Or.inl ⟨hsel2, rfl⟩⟩
      | failure err =>
        simp only []
        have hr := failJob_row t2 ms (claimedRow t1 j).id err (claimedRow t1 j).attempts
          (claimedRow t1 j).max_retries
          { s with jobs := s.jobs.map (fun y => if y = j then claimedRow t1 j else y) }
          i x hrow1
        simp only [hid, if_false] at hr
        exact ⟨x, hr, rfl, Or.inl ⟨hsel2, rfl⟩⟩
      | threw =>
        simp only []
        exact ⟨x, hrow1, rfl, Or.inl ⟨hsel2, rfl⟩⟩

/-! ## Terminal states -/

/-- C8, as stated, fails: `failJob` on the id of a completed job makes it
pending, and `completeJob` on the id of a dead job makes it completed. -/
theorem terminal_state_left_by_failJob_and_completeJob :
    completedStore.jobs.map Job.state = [JobState.completed] ∧
    (step 10 0 (Op.failJob "a" "boom" 0 3) completedStore).jobs.map Job.state
      = [JobState.pending] ∧
    deadStore.jobs.map Job.state = [JobState.dead] ∧
    (step 10 0 (Op.completeJob "a") deadStore).jobs.map Job.state
      = [JobState.completed] := by
  decide

/-- C8, amended: for a store with distinct ids and any operation, the row at
each position keeps its id; a completed job is still completed afterwards
unless the operation is `failJob` on its id; a dead job is still dead
afterwards unless the operation is the dlq retry of its id, `completeJob` on
its id, or a `failJob` on its id that takes the retry branch, the one where
the sum `attempts + 1`, as JavaScript computes it, is below `maxRetries`.  One
iteration of a worker, which records an outcome only for the job it has just
claimed, leaves every completed job completed and every dead job dead. -/
theorem terminal_states_preserved (t : ℚ) (ms : Fin 1000) (op : Op) (s : Store)
    (hnodup : (s.jobs.map Job.id).Nodup) (i : Nat) (x : Job) (h : s.jobs[i]? = some x) :
    (∃ y, (step t ms op s).jobs[i]? = some y ∧ y.id = x.id ∧
      (x.state = JobState.completed →
        (∀ (e : String) (a m : Int), op ≠ Op.failJob x.id e a m) →
        y.state = JobState.completed) ∧
      (x.state = JobState.dead →
        op ≠ Op.dlqRetry x.id → op ≠ Op.completeJob x.id →
        (∀ (e : String) (a m : Int), op = Op.failJob x.id e a m →
          roundToDouble (a + 1) ≥ m) →
        y.state = JobState.dead)) ∧
    (∀ (exec : String → ExecResult) (t2 : ℚ) (ms2 : Fin 1000),
      ∃ y, (workerIteration exec t t2 ms2 s).jobs[i]? = some y ∧ y.id = x.id ∧
        (x.state = JobState.completed → y.state = JobState.completed) ∧
        (x.state = JobState.dead → y.state = JobState.dead)) := by
  constructor
  · cases op with
    | enqueue id command =>
      exact ⟨x, enqueue_row id command t s i x h, rfl, fun hc _ => hc, fun hd _ _ _ => hd⟩
    | fetchNextJob =>
      rcases fetchNextJob_row_eligible t s hnodup i x h with h1 | ⟨h1, helig⟩
      · exact ⟨x, h1, rfl, fun hc _ => hc, fun hd _ _ _ => hd⟩
      · have hp := ((eligible_iff t x).mp helig).1
        refine ⟨claimedRow t x, h1, rfl, ?_, ?_⟩
        · intro hc; rw [hp] at hc; exact absurd hc (by decide)
        · intro hd; rw [hp] at hd; exact absurd hd (by decide)
    | completeJob id =>
      refine ⟨_, completeJob_row t id s i x h, ?_, ?_, ?_⟩
      · by_cases hx : x.id = id <;> simp [hx]
      · intro hc _
        by_cases hx : x.id = id <;> simp [hx, hc]
      · intro hd _ hne _
        have hx : x.id ≠ id := fun hc => hne (by rw [hc])
        simp [hx, hd]
    | failJob id error attempts maxRetries =>
      refine ⟨_, failJob_row t ms id error attempts (some (JsNumber.int maxRetries)) s i x h,
        ?_, ?_, ?_⟩
      · by_cases hx : x.id = id <;>
          by_cases hb : atLeast (roundToDouble (attempts + 1))
            (some (JsNumber.int maxRetries)) = true <;> simp [hx, hb]
      · intro hc hne
        have hx : x.id ≠ id := fun hc2 => hne error attempts maxRetries (by rw [hc2])
        simp [hx, hc]
      · intro hd _ _ hbranch
        by_cases hx : x.id = id
        · have hge : roundToDouble (attempts + 1) ≥ maxRetries :=
            hbranch error attempts maxRetries (by rw [hx])
          have hb : atLeast (roundToDouble (attempts + 1)) (some (JsNumber.int maxRetries))
              = true := by simp [atLeast, hge]
          simp [hx, hb]
        · simp [hx, hd]
    | dlqRetry id =>
      refine ⟨_, dlqRetry_row t id s i x h, ?_, ?_, ?_⟩
      · by_cases hx : x.id = id ∧ x.state = JobState.dead <;> simp [hx]
      · intro hc _
        have hx : ¬ (x.id = id ∧ x.state = JobState.dead) := by
          rintro ⟨_, hst⟩; rw [hc] at hst; exact absurd hst (by decide)
        simp [hx, hc]
      · intro hd hne _ _
        have hx : x.id ≠ id := fun hid => hne (by rw [hid])
        simp [hx, hd]
    | configSet key value =>
      exact ⟨x, h, rfl, fun hc _ => hc, fun hd _ _ _ => hd⟩
  · intro exec t2 ms2
    obtain ⟨y, hy, hid, hcases⟩ := workerIteration_row exec t t2 ms2 s hnodup i x h
    refine ⟨y, hy, hid, ?_, ?_⟩
    · intro hc
      rcases hcases with ⟨_, rfl⟩ | ⟨_, helig, _⟩
      · exact hc
      · have hp := ((eligible_iff t x).mp helig).1
        rw [hp] at hc; exact absurd hc (by decide)
    · intro hd
      rcases hcases with ⟨_, rfl⟩ | ⟨_, helig, _⟩
      · exact hd
      · have hp := ((eligible_iff t x).mp helig).1
        rw [hp] at hd; exact absurd hd (by decide)

/-! ## The attempts counter -/

/-- C9, as stated, fails: a call of `failJob` on the id of a job whose stored
`attempts` is 5, with the argument `attempts = 0`, stores `attempts = 1`; this
is not an increase by 1, and it is a decrease made by an operation other than
the dlq retry.  And a call whose argument is the stored value `2 ^ 53` leaves
the stored value at `2 ^ 53`. -/
theorem failJob_can_lower_attempts :
    processingStore.jobs.map Job.attempts = [5] ∧
    (step 10 0 (Op.failJob "a" "boom" 0 3) processingStore).jobs.map Job.attempts = [1] ∧
    saturatedStore.jobs.map Job.attempts = [9007199254740992] ∧
    (step 10 0 (Op.failJob "a" "boom" 9007199254740992 3) saturatedStore).jobs.map
      Job.attempts = [9007199254740992] := by
  decide

/-- C9, amended: after `failJob` on a job's id the stored `attempts` is the
double sum of the `attempts` argument and 1, which is the argument plus 1 for
an argument from `-2 ^ 53` to `2 ^ 53 - 1`, hence the stored value plus exactly
1 when the argument is the stored value; a dlq retry leaves it or resets it to
0; and an operation that is neither a dlq retry nor a `failJob` on the job's id
whose sum is below the stored value does not make it smaller.  In one
iteration of a worker on a store with distinct ids, which passes the `attempts`
of the row it claimed, the stored `attempts` of a job in that range is
unchanged or increased by exactly 1; it is increased by exactly 1 for the
claimed job when its command fails, and unchanged when `exec` throws. -/
theorem attempts_after_operation (t : ℚ) (ms : Fin 1000) (op : Op) (s : Store)
    (i : Nat) (x : Job) (h : s.jobs[i]? = some x) :
    (∃ y, (step t ms op s).jobs[i]? = some y ∧ y.id = x.id ∧
      (∀ (e : String) (a m : Int), op = Op.failJob x.id e a m →
        y.attempts = roundToDouble (a + 1) ∧
        (-(2 ^ 53) ≤ a → a < 2 ^ 53 →
          y.attempts = a + 1 ∧ (a = x.attempts → y.attempts = x.attempts + 1))) ∧
      (∀ id : String, op = Op.dlqRetry id → y.attempts = x.attempts ∨ y.attempts = 0) ∧
      ((∀ id : String, op ≠ Op.dlqRetry id) →
        (∀ (e : String) (a m : Int), op = Op.failJob x.id e a m →
          x.attempts ≤ roundToDouble (a + 1)) →
        x.attempts ≤ y.attempts)) ∧
    ((s.jobs.map Job.id).Nodup → -(2 ^ 53) ≤ x.attempts → x.attempts < 2 ^ 53 →
      ∀ (exec : String → ExecResult) (t2 : ℚ) (ms2 : Fin 1000),
      ∃ y, (workerIteration exec t t2 ms2 s).jobs[i]? = some y ∧ y.id = x.id ∧
        (y.attempts = x.attempts ∨ y.attempts = x.attempts + 1) ∧
        (∀ err : String, selectNextId t s = some x.id →
          exec x.command = ExecResult.failure err → y.attempts = x.attempts + 1) ∧
        (selectNextId t s = some x.id → exec x.command = ExecResult.threw →
          y.attempts = x.attempts)) := by
  constructor
  · cases op with
    | enqueue id command =>
      refine ⟨x, enqueue_row id command t s i x h, rfl, ?_, ?_, ?_⟩
      · intro e a m hc; exact Op.noConfusion hc
      · intro id hc; exact Op.noConfusion hc
      · intro _ _; exact le_refl _
    | fetchNextJob =>
      rcases fetchNextJob_row t s i x h with h1 | ⟨h1, _⟩
      · refine ⟨x, h1, rfl, ?_, ?_, ?_⟩
        · intro e a m hc; exact Op.noConfusion hc
        · intro id hc; exact Op.noConfusion hc
        · intro _ _; exact le_refl _
      · refine ⟨claimedRow t x, h1, rfl, ?_, ?_, ?_⟩
        · intro e a m hc; exact Op.noConfusion hc
        · intro id hc; exact Op.noConfusion hc
        · intro _ _; exact le_refl _
    | completeJob id =>
      refine ⟨_, completeJob_row t id s i x h, ?_, ?_, ?_, ?_⟩
      · by_cases hx : x.id = id <;> simp [hx]
      · intro e a m hc; exact Op.noConfusion hc
      · intro id hc; exact Op.noConfusion hc
      · intro _ _
        by_cases hx : x.id = id <;> simp [hx]
    | failJob id error attempts maxRetries =>
      have hval : ∀ hid : x.id = id, (if x.id = id then
          (if atLeast (roundToDouble (attempts + 1)) (some (JsNumber.int maxRetries)) = true
          then
            { x with state := JobState.dead, last_error := some error,
                     attempts := roundToDouble (attempts + 1), updated_at := t }
          else
            { x with state := JobState.pending, last_error := some error,
                     attempts := roundToDouble (attempts + 1),
                     next_run_at := datetimeNowPlusSeconds t ms
                       ((2 : ℚ) ^ roundToDouble (attempts + 1)),
                     updated_at := t })
          else x).attempts = roundToDouble (attempts + 1) := by
        intro hid
        by_cases hb : atLeast (roundToDouble (attempts + 1))
          (some (JsNumber.int maxRetries)) = true <;> simp [hid, hb]
      refine ⟨_, failJob_row t ms id error attempts (some (JsNumber.int maxRetries)) s i x h,
        ?_, ?_, ?_, ?_⟩
      · by_cases hx : x.id = id <;>
          by_cases hb : atLeast (roundToDouble (attempts + 1))
            (some (JsNumber.int maxRetries)) = true <;> simp [hx, hb]
      · intro e a m hc
        injection hc with hid _ ha _
        subst ha
        refine ⟨hval hid.symm, ?_⟩
        intro hlo hhi
        have hround : roundToDouble (attempts + 1) = attempts + 1 :=
          roundToDouble_exact (attempts + 1) (by omega) (by omega)
        exact ⟨by rw [hval hid.symm, hround], fun ha => by rw [hval hid.symm, hround, ha]⟩
      · intro id2 hc; exact Op.noConfusion hc
      · intro _ hle
        by_cases hx : x.id = id
        · have := hle error attempts maxRetries (by rw [hx])
          rw [hval hx]; exact this
        · simp [hx]
    | dlqRetry id =>
      refine ⟨_, dlqRetry_row t id s i x h, ?_, ?_, ?_, ?_⟩
      · by_cases hx : x.id = id ∧ x.state = JobState.dead <;> simp [hx]
      · intro e a m hc; exact Op.noConfusion hc
      · intro _ _
        by_cases hx : x.id = id ∧ x.state = JobState.dead
        · right; simp [hx]
        · left; simp [hx]
      · intro hne _
        exact absurd rfl (hne id)
    | configSet key value =>
      refine ⟨x, h, rfl, ?_, ?_, ?_⟩
      · intro e a m hc; exact Op.noConfusion hc
      · intro id hc; exact Op.noConfusion hc
      · intro _ _; exact le_refl _
  · intro hnodup hlo hhi exec t2 ms2
    have hround : roundToDouble (x.attempts + 1) = x.attempts + 1 :=
      roundToDouble_exact (x.attempts + 1) (by omega) (by omega)
    obtain ⟨y, hy, hid, hcases⟩ := workerIteration_row exec t t2 ms2 s hnodup i x h
    refine ⟨y, hy, hid, ?_, ?_, ?_⟩
    · rcases hcases with ⟨_, rfl⟩ | ⟨_, _, ⟨_, _, _, hs⟩ | ⟨_, _, hf, _⟩ | ⟨_, rfl⟩⟩
      · exact Or.inl rfl
      · exact Or.inl hs
      · exact Or.inr (by rw [hf, hround])
      · exact Or.inl rfl
    · intro err hsel hexec
      rcases hcases with ⟨hne, _⟩ | ⟨_, _, ⟨_, hs, _, _⟩ | ⟨_, _, hf, _⟩ | ⟨ht, _⟩⟩
      · exact absurd hsel hne
      · rw [hexec] at hs; exact ExecResult.noConfusion hs
      · rw [hf, hround]
      · rw [hexec] at ht; exact ExecResult.noConfusion ht
    · intro hsel hexec
      rcases hcases with ⟨hne, _⟩ | ⟨_, _, ⟨_, hs, _, _⟩ | ⟨_, hf, _, _⟩ | ⟨_, rfl⟩⟩
      · exact absurd hsel hne
      · rw [hexec] at hs; exact ExecResult.noConfusion hs
      · rw [hexec] at hf; exact ExecResult.noConfusion hf
      · rfl

/-! ## completeJob -/

theorem completeJob_twice (t1 t2 : ℚ) (id : String) (s : Store) :
    completeJob t2 id (completeJob t1 id s) = completeJob t2 id s := by
  unfold completeJob
  simp only [List.map_map]
  congr 1
  apply List.map_congr_left
  intro x _
  by_cases hx : x.id = id <;> simp [hx]

theorem completeJob_unknown (t : ℚ) (id : String) (s : Store)
    (h : ∀ x ∈ s.jobs, x.id ≠ id) : completeJob t id s = s := by
  have hmap : s.jobs.map (fun j =>
      if j.id = id then { j with state := JobState.completed, updated_at := t } else j) =
      s.jobs.map (fun j => j) := by
    apply List.map_congr_left
    intro x hx
    simp [h x hx]
  unfold completeJob
  simp only [hmap, List.map_id']

/-- C10, as stated, fails: `completeJob` at time 5 on a job already completed
at time 0 changes the store, and a second call at time 7 does not give the
store of the first call at time 5. -/
theorem completeJob_on_completed_changes_store :
    completedStore.jobs.map Job.state = [JobState.completed] ∧
    completeJob 5 "a" completedStore ≠ completedStore ∧
    completeJob 7 "a" (completeJob 5 "a" processingStore) ≠
      completeJob 5 "a" processingStore := by
  refine ⟨by decide, ?_, ?_⟩
  · intro hc
    have h := congrArg (fun st => st.jobs.map Job.updated_at) hc
    simp [completeJob, completedStore, sampleJob, insertedRow] at h
  · intro hc
    have h := congrArg (fun st => st.jobs.map Job.updated_at) hc
    simp [completeJob, processingStore, sampleJob, insertedRow] at h

/-- C10, amended: `completeJob` raises nothing and keeps the table's length and
the configuration; each row with the given id, a processing job's in
particular, gets state `completed` and `updated_at = now` and keeps its
`attempts` and every other field, and every other row is as before; on an id
no job has the store is unchanged; on an already-completed job only
`updated_at` changes; and two calls give the store of the later call alone,
so two calls at the same time give the store of one. -/
theorem completeJob_spec (now : ℚ) (id : String) (s : Store) :
    (completeJob now id s).jobs.length = s.jobs.length ∧
    (completeJob now id s).config = s.config ∧
    (∀ (i : Nat) (x : Job), s.jobs[i]? = some x →
      ∃ y, (completeJob now id s).jobs[i]? = some y ∧
        (x.id = id →
          y = { x with state := JobState.completed, updated_at := now } ∧
          y.attempts = x.attempts) ∧
        (x.id = id → x.state = JobState.completed → y = { x with updated_at := now }) ∧
        (x.id ≠ id → y = x)) ∧
    ((∀ x ∈ s.jobs, x.id ≠ id) → completeJob now id s = s) ∧
    (∀ later : ℚ, completeJob later id (completeJob now id s) = completeJob later id s) ∧
    completeJob now id (completeJob now id s) = completeJob now id s := by
  refine ⟨by simp [completeJob], rfl, ?_, completeJob_unknown now id s,
    fun later => completeJob_twice now later id s, completeJob_twice now now id s⟩
  intro i x hx
  refine ⟨_, completeJob_row now id s i x hx, ?_, ?_, ?_⟩
  · intro h; simp [h]
  · intro h hc; simp [h, ← hc]
  · intro h; simp [h]

/-! ## The theorems at concrete inputs -/

/-- C1, amended, at a store holding job "a": a first failure under
`maxRetries = 3` is a retry that leaves the job pending with `attempts = 1` and
the error recorded. -/
theorem failJob_outcome_and_row_witness :
    (∃ j ∈ processingStore.jobs, j.id = "a") ∧ -(2 ^ 53) ≤ (0 : Int) ∧ (0 : Int) < 2 ^ 53 ∧
    (failJob 10 0 "a" "boom" 0 (some (JsNumber.int 3)) processingStore).1 = Outcome.retry ∧
    (∀ j ∈ (failJob 10 0 "a" "boom" 0 (some (JsNumber.int 3)) processingStore).2.jobs,
      j.id = "a" →
      (j.state =
        if (failJob 10 0 "a" "boom" 0 (some (JsNumber.int 3)) processingStore).1
            = Outcome.dead
        then JobState.dead else JobState.pending) ∧
      j.attempts = 0 + 1 ∧ j.last_error = some "boom") :=
  ⟨⟨sampleJob "a" JobState.processing 5, by decide, rfl⟩, by decide, by decide,
   (failJob_outcome_and_row 10 0 "a" "boom" 0 3 processingStore
      ⟨sampleJob "a" JobState.processing 5, by decide, rfl⟩ (by decide)
      (by decide)).2.1.mpr (by decide),
   (failJob_outcome_and_row 10 0 "a" "boom" 0 3 processingStore
      ⟨sampleJob "a" JobState.processing 5, by decide, rfl⟩ (by decide)
      (by decide)).2.2.2.2⟩

/-- C2, amended, at a store holding job "a": a first failure at time 10 under
`maxRetries = 3` sets `next_run_at` to `10 + 2 ^ 1`. -/
theorem failJob_backoff_witness :
    (0 : Int) + 1 < 3 ∧ (0 : Int) ≤ 0 + 1 ∧ (0 : Int) < 2 ^ 53 ∧ (0 : ℚ) ≤ 10 ∧
    (10 : ℚ) * 1000 + (((0 : Fin 1000).val : Nat) : ℚ) + 1000 * (2 : ℚ) ^ ((0 : Int) + 1)
      ≤ lastJulianMillis ∧
    ∀ j ∈ (failJob 10 0 "a" "boom" 0 (some (JsNumber.int 3)) processingStore).2.jobs,
      j.id = "a" → j.next_run_at = some (10 + (2 : ℚ) ^ ((0 : Int) + 1)) :=
  ⟨by decide, by decide, by decide, by norm_num, by norm_num [lastJulianMillis],
   ((failJob_backoff 10 0 "a" "boom" 0 3 processingStore).1 (by decide) (by decide)
      (by decide) (by norm_num) (by norm_num [lastJulianMillis])).2⟩

/-- C3 at a store of two pending jobs: the claim at time 10 returns the updated
row of an eligible job of the table. -/
theorem fetchNextJob_claims_oldest_witness :
    (pendingStore.jobs.map Job.id).Nodup ∧
    ∃ j ∈ pendingStore.jobs, j.state = JobState.pending ∧
      (∃ t, j.next_run_at = some t ∧ t ≤ 10) ∧
      (∀ k ∈ pendingStore.jobs, k.state = JobState.pending →
        (∃ t, k.next_run_at = some t ∧ t ≤ 10) → j.created_at ≤ k.created_at) ∧
      (∀ a ∈ pendingStore.jobs, ∀ b ∈ pendingStore.jobs, a.state = JobState.pending →
        (∃ t, a.next_run_at = some t ∧ t ≤ 10) → a.created_at < b.created_at → j ≠ b) ∧
      (fetchNextJob 10 pendingStore).1 = some (claimedRow 10 j) ∧
      (claimedRow 10 j).state = JobState.processing ∧
      (fetchNextJob 10 pendingStore).2.config = pendingStore.config ∧
      (fetchNextJob 10 pendingStore).2.jobs.length = pendingStore.jobs.length ∧
      ∀ (i : Nat) (x : Job), pendingStore.jobs[i]? = some x →
        (fetchNextJob 10 pendingStore).2.jobs[i]? =
          some (if x = j then claimedRow 10 j else x) :=
  ⟨by decide,
   (fetchNextJob_claims_oldest 10 pendingStore (by decide)).2
     ⟨sampleJob "a" JobState.pending 0, by decide, rfl, 0, rfl, by decide⟩⟩

/-- C4 at a store of two pending jobs and three claims: the jobs returned are
exactly the updated rows of the two eligible jobs. -/
theorem runClaims_exclusive_witness :
    (pendingStore.jobs.map Job.id).Nodup ∧
    (pendingStore.jobs.filter (eligible 10)).length ≤ [1, 2, 3].length ∧
    ((runClaims 10 [1, 2, 3] pendingStore).1.filterMap Prod.snd).Perm
      ((pendingStore.jobs.filter (eligible 10)).map (claimedRow 10)) :=
  ⟨by decide, by decide,
   (runClaims_exclusive 10 [1, 2, 3] pendingStore (by decide)).2.2.2.2.2 (by decide)⟩

/-- C6, amended, at a store whose configuration has `max_retries = "3"`: the
job enqueued has `max_retries = 3`. -/
theorem enqueue_snapshots_max_retries_witness :
    configGet pendingStore "max_retries" = some "3" ∧ parsedInteger "3" = some 3 ∧
    -(2 ^ 53) ≤ (3 : Int) ∧ (3 : Int) ≤ 2 ^ 53 ∧
    (enqueue "c" 1 "echo hello" pendingStore).1.max_retries = some (JsNumber.int 3) :=
  ⟨by decide, by decide, by decide, by decide,
   (enqueue_snapshots_max_retries "c" "echo hello" 1 pendingStore).2.1 "3" 3
     (by decide) (by decide) (by decide) (by decide)⟩

/-- C7 at a store holding the dead job "a": its retry reports success. -/
theorem dlqRetry_spec_witness :
    (∃ j ∈ deadStore.jobs, j.id = "a" ∧ j.state = JobState.dead) ∧
    (dlqRetry 10 "a" deadStore).1 = true :=
  ⟨⟨sampleJob "a" JobState.dead 3, by decide, rfl, rfl⟩,
   (dlqRetry_spec 10 "a" deadStore).1.mpr
     ⟨sampleJob "a" JobState.dead 3, by decide, rfl, rfl⟩⟩

/-- C8, amended, at a store holding the completed job "a": `completeJob` on its
id leaves it completed. -/
theorem terminal_states_preserved_witness :
    (completedStore.jobs.map Job.id).Nodup ∧
    completedStore.jobs[0]? = some (sampleJob "a" JobState.completed 0) ∧
    ∃ y, (step 10 0 (Op.completeJob "a") completedStore).jobs[0]? = some y ∧
      y.id = "a" ∧ y.state = JobState.completed :=
  ⟨by decide, rfl,
   (terminal_states_preserved 10 0 (Op.completeJob "a") completedStore (by decide) 0
      (sampleJob "a" JobState.completed 0) rfl).1.elim
     (fun y hy => ⟨y, hy.1, hy.2.1, hy.2.2.1 rfl (fun _ _ _ hc => Op.noConfusion hc)⟩)⟩

/-- C9, amended, at a store holding job "a" with `attempts = 5`: `failJob` with
the argument 5 stores 6. -/
theorem attempts_after_operation_witness :
    processingStore.jobs[0]? = some (sampleJob "a" JobState.processing 5) ∧
    -(2 ^ 53) ≤ (5 : Int) ∧ (5 : Int) < 2 ^ 53 ∧
    ∃ y, (step 10 0 (Op.failJob "a" "boom" 5 9) processingStore).jobs[0]? = some y ∧
      y.attempts = 5 + 1 :=
  ⟨rfl, by decide, by decide,
   (attempts_after_operation 10 0 (Op.failJob "a" "boom" 5 9) processingStore 0
      (sampleJob "a" JobState.processing 5) rfl).1.elim
     (fun y hy => ⟨y, hy.1, ((hy.2.2.1 "boom" 5 9 rfl).2 (by decide) (by decide)).1⟩)⟩

/-- C10, amended, at a store holding the processing job "a": `completeJob` on
its id stores it completed with `attempts` as before. -/
theorem completeJob_spec_witness :
    processingStore.jobs[0]? = some (sampleJob "a" JobState.processing 5) ∧
    ∃ y, (completeJob 10 "a" processingStore).jobs[0]? = some y ∧
      y = { sampleJob "a" JobState.processing 5 with
              state := JobState.completed, updated_at := 10 } ∧
      y.attempts = 5 :=
  ⟨rfl,
   ((completeJob_spec 10 "a" processingStore).2.2.1 0
      (sampleJob "a" JobState.processing 5) rfl).elim
     (fun y hy => ⟨y, hy.1, (hy.2.1 rfl).1, (hy.2.1 rfl).2⟩)⟩

end QueueCTL
